import Mathlib

/-!
# The regex conformance harness `testsuite/tst-regex.c`

A shallow embedding of the harness: the corpus loader of `main`, the forward
iterator `run_test`, the backward iterator `run_test_backwards`, the line scans
they share, and the expectation check of `test_expr` and `main`.

Conventions of the embedding.

* A buffer is a `List Nat` of bytes; `mem[i]?` is the byte at index `i`, and
  `none` stands for a read outside the allocation.
* `size_t` values are `Nat` reduced modulo `SIZE_MOD = 2 ^ 64` where the source
  computes them; `int` values are `Int`, and an increment past `INT_MAX` is a
  fatal stop of its own.
* The regex engine and the character-set conversion are external to the
  repository; they are parameters of the embedding.
* Loops that the source writes with `while` take a fuel argument when their
  termination depends on the engine; running out of fuel is the stop `Stop.fuel`,
  distinct from every stop of the program itself.
* A buffer of `memlen + 1` bytes is one object, so `memlen + 1 < SIZE_MOD`; the
  theorems about the cursors assume it.
-/

namespace TstRegex

/-! ## Constants -/

/-- The byte `'\n'`. -/
def NL : Nat := 10

/-- The byte `'\0'`. -/
def NUL : Nat := 0

/-- The modulus of `size_t` arithmetic (a 64-bit `size_t`). -/
def SIZE_MOD : Nat := 2 ^ 64

/-- The largest `int`. -/
def INT_MAX : Int := 2147483647

/-! ## The line scans (tst-regex.c lines 191-197 and 253-259) -/

/-- The leftward scan `while (sp > mem && sp[-1] != '\n') --sp;` started at
index `sp`. The first component is the final index (`none` when a read fell
outside the allocation), the second the indices read through `sp[-1]`, in
order. -/
def line_start (mem : List Nat) : Nat → Option Nat × List Nat
  | 0 => (some 0, [])
  | sp + 1 =>
    match mem[sp]? with
    | none => (none, [sp])
    | some c =>
      if c ≠ NL then
        let r := line_start mem sp
        (r.1, sp :: r.2)
      else (some (sp + 1), [sp])

/-- The rightward scan `while (*ep != '\0' && *ep != '\n') ++ep;` on the memory
`rest` that lies at and after index `ep`. The first component is the final
index (`none` when the scan ran off the allocation), the second the indices
read through `*ep`, in order. -/
def line_end_from : List Nat → Nat → Option Nat × List Nat
  | [], ep => (none, [ep])
  | c :: rest, ep =>
    if c ≠ NUL ∧ c ≠ NL then
      let r := line_end_from rest (ep + 1)
      (r.1, ep :: r.2)
    else (some ep, [ep])

/-- The rightward scan started at index `ep` of the buffer `mem`. -/
def line_end (mem : List Nat) (ep : Nat) : Option Nat × List Nat :=
  line_end_from (mem.drop ep) ep

/-- The length of the NUL-terminated string at `mem + offset`, as the engine
sees its subject in `regexec (&re, mem + offset, ...)`; `none` when the string
is not terminated inside the allocation. -/
def strlen_from : List Nat → Option Nat
  | [] => none
  | c :: rest => if c = NUL then some 0 else (strlen_from rest).map (· + 1)

/-- The length of the C string at `mem + offset`. -/
def strlen (mem : List Nat) (offset : Nat) : Option Nat :=
  strlen_from (mem.drop offset)

/-! ## Stops, standard output and sequencing -/

/-- The ways the program stops other than by returning from `main`: the
`exit (1)` and `error (EXIT_FAILURE, ...)` calls of the source, a failed
`assert`, and the two undefined behaviours the embedding tracks. -/
inductive Fatal
  | usage
  | cannot_open
  | cannot_stat
  | alloc_buffer
  | cannot_read
  | no_conversion_descriptor
  | cannot_convert
  | cannot_compile
  | cannot_use
  | alloc_fastmap
  | compile_fastmap
  | internal_error
  | assertion
  | out_of_bounds
  | int_overflow
  deriving DecidableEq, Repr

/-- A stop of the embedded program: one of the program itself, or the fuel of
the embedding ran out. -/
inductive Stop
  | fatal (f : Fatal)
  | fuel
  deriving DecidableEq, Repr

/-- What the program writes to standard output: the header `printf` of
`test_expr` before each run (direction and case mode of the run it announces),
and the `printf ("match %d: ...", ++cnt, (int) (ep - sp), sp)` of the two
iterators. -/
inductive Event
  | test_header (expr : String) (backwards : Bool) (icase : Bool)
  | match_line (cnt : Int) (sp ep : Nat)
  deriving DecidableEq, Repr

/-- A piece of the program: what it printed, and how it ended. -/
structure Prog (α : Type) where
  out : List Event
  ret : Except Stop α

/-- Sequencing: the output of the first piece, then, when it returned, the
second piece. -/
def Prog.seq {α β : Type} (m : Prog α) (f : α → Prog β) : Prog β :=
  match m.ret with
  | .ok a => ⟨m.out ++ (f a).out, (f a).ret⟩
  | .error e => ⟨m.out, .error e⟩

instance : Monad Prog where
  pure a := ⟨[], .ok a⟩
  bind := Prog.seq

/-- One `printf`. -/
def printf (e : Event) : Prog Unit := ⟨[e], .ok ()⟩

/-- A fatal stop. -/
def fatal {α : Type} (f : Fatal) : Prog α := ⟨[], .error (.fatal f)⟩

/-! ## The engine (external to the repository) -/

/-- The result of `regexec (&re, mem + offset, 1, ma, 0)`: `REG_NOERROR` with
`ma[0].rm_so`, `REG_NOMATCH`, or any other error code. -/
inductive RegexecResult
  | REG_NOERROR (rm_so : Int)
  | REG_NOMATCH
  | failure (err : Nat)
  deriving DecidableEq, Repr

/-- The regex engine as the harness calls it. Each field stands for one call of
the source with the arguments that vary. For a fixed pattern, case mode and
buffer a search is a function of the cursor.

* `regcomp expr icase` is true when `regcomp` returns `REG_NOERROR`.
* `regexec expr icase mem offset` is the search in the string at `mem + offset`.
* `fastmap_malloc` is true when `malloc (256)` returns a buffer.
* `re_compile_pattern expr icase` is true when `re_compile_pattern` returns
  `NULL`, that is, no error message.
* `re_compile_fastmap expr icase` is true when `re_compile_fastmap` returns 0.
* `re_search expr icase mem memlen offset` is
  `re_search (&re, mem, memlen, offset, -offset, NULL)`; the conversions of
  `offset` and `-offset` to the parameter types of the absent `regex.h` belong
  to the engine. Its `int` result is `-1` for no match and `-2` for an internal
  error. -/
structure Engine where
  regcomp : String → Bool → Bool
  regexec : String → Bool → List Nat → Nat → RegexecResult
  fastmap_malloc : Bool
  re_compile_pattern : String → Bool → Bool
  re_compile_fastmap : String → Bool → Bool
  re_search : String → Bool → List Nat → Nat → Nat → Int

/-! ## The iterators (tst-regex.c lines 153-271) -/

/-- One pass through the body of a `while` loop of an iterator: it ran to its
end with a new cursor and count and the line it printed, it left the loop by
`break`, or it stopped the program. -/
inductive Step
  | next (offset : Nat) (cnt : Int) (sp ep : Nat)
  | brk
  | stop (f : Fatal)
  deriving DecidableEq, Repr

/-- The body of the loop of `run_test` (lines 175-201) at cursor `offset` and
count `cnt`; `regexec` is the compiled expression searching at `mem + offset`. -/
def run_test_body (regexec : Nat → RegexecResult) (mem : List Nat)
    (offset : Nat) (cnt : Int) : Step :=
  match regexec offset with
  | .REG_NOMATCH => .brk
  | .failure _ => .stop .cannot_use
  | .REG_NOERROR rm_so =>
    if rm_so < 0 then .stop .assertion
    else
      match (line_start mem (offset + rm_so.toNat)).1,
            (line_end mem (offset + rm_so.toNat)).1 with
      | some sp, some ep =>
        if INT_MAX < cnt + 1 then .stop .int_overflow
        else .next ((ep + 1) % SIZE_MOD) (cnt + 1) sp ep
      | _, _ => .stop .out_of_bounds

/-- The loop `while (offset < memlen)` of `run_test` from cursor `offset` and
count `cnt`; it returns the final count. -/
def run_test_loop (regexec : Nat → RegexecResult) (mem : List Nat) (memlen : Nat) :
    Nat → Nat → Int → Prog Int
  | 0, _, _ => ⟨[], .error .fuel⟩
  | fuel + 1, offset, cnt =>
    if offset < memlen then
      match run_test_body regexec mem offset cnt with
      | .brk => pure cnt
      | .stop f => fatal f
      | .next offset' cnt' sp ep => do
        printf (.match_line cnt' sp ep)
        run_test_loop regexec mem memlen fuel offset' cnt'
    else pure cnt

/-- The function `run_test` (lines 153-209). -/
def run_test (E : Engine) (expr : String) (mem : List Nat) (memlen : Nat)
    (icase : Bool) (expected : Int) (fuel : Nat) : Prog Nat :=
  if !E.regcomp expr icase then fatal .cannot_compile
  else
    match mem[memlen]? with
    | none => fatal .out_of_bounds
    | some c =>
      if c ≠ NUL then fatal .assertion
      else do
        let cnt ← run_test_loop (E.regexec expr icase mem) mem memlen fuel 0 0
        pure (if cnt ≠ expected then 1 else 0)

/-- The body of the loop of `run_test_backwards` (lines 242-263) at cursor
`offset` and count `cnt`; `re_search` is the compiled pattern searching
backwards from `offset`. A negative `start` other than `-1` and `-2` makes
`sp = mem + start` point before the buffer, where `*ep` reads. -/
def run_test_backwards_body (re_search : Nat → Int) (mem : List Nat)
    (offset : Nat) (cnt : Int) : Step :=
  if re_search offset = -1 then .brk
  else if re_search offset = -2 then .stop .internal_error
  else if re_search offset < 0 then .stop .out_of_bounds
  else
    match (line_start mem (re_search offset).toNat).1,
          (line_end mem (re_search offset).toNat).1 with
    | some sp, some ep =>
      if INT_MAX < cnt + 1 then .stop .int_overflow
      else .next ((sp + SIZE_MOD - 1) % SIZE_MOD) (cnt + 1) sp ep
    | _, _ => .stop .out_of_bounds

/-- The loop `while (offset <= memlen)` of `run_test_backwards` from cursor
`offset` and count `cnt`; it returns the final count. -/
def run_test_backwards_loop (re_search : Nat → Int) (mem : List Nat) (memlen : Nat) :
    Nat → Nat → Int → Prog Int
  | 0, _, _ => ⟨[], .error .fuel⟩
  | fuel + 1, offset, cnt =>
    if offset ≤ memlen then
      match run_test_backwards_body re_search mem offset cnt with
      | .brk => pure cnt
      | .stop f => fatal f
      | .next offset' cnt' sp ep => do
        printf (.match_line cnt' sp ep)
        run_test_backwards_loop re_search mem memlen fuel offset' cnt'
    else pure cnt

/-- The function `run_test_backwards` (lines 212-271); the cursor starts at
`memlen`. -/
def run_test_backwards (E : Engine) (expr : String) (mem : List Nat) (memlen : Nat)
    (icase : Bool) (expected : Int) (fuel : Nat) : Prog Nat :=
  if !E.fastmap_malloc then fatal .alloc_fastmap
  else if !E.re_compile_pattern expr icase then fatal .cannot_compile
  else if !E.re_compile_fastmap expr icase then fatal .compile_fastmap
  else
    match mem[memlen]? with
    | none => fatal .out_of_bounds
    | some c =>
      if c ≠ NUL then fatal .assertion
      else do
        let cnt ← run_test_backwards_loop (E.re_search expr icase mem memlen) mem memlen
          fuel memlen 0
        pure (if cnt ≠ expected then 1 else 0)

/-- The line starts `sp` of the match lines of an output, in print order. -/
def line_starts : List Event → List Nat
  | [] => []
  | .match_line _ sp _ :: rest => sp :: line_starts rest
  | .test_header _ _ _ :: rest => line_starts rest

/-! ## The corpus, `test_expr` and `main` (lines 42-150) -/

/-- The file-scope variables `mem`, `umem`, `memlen`, `umemlen`. -/
structure Globals where
  mem : List Nat
  memlen : Nat
  umem : List Nat
  umemlen : Nat
  deriving DecidableEq, Repr

/-- The function `test_expr` (lines 136-150): four runs, all on the globals
`mem` and `memlen`. -/
def test_expr (E : Engine) (G : Globals) (fuel : Nat) (expr : String)
    (expected expectedicase : Int) : Prog Nat := do
  printf (.test_header expr false false)
  let result ← run_test E expr G.mem G.memlen false expected fuel
  printf (.test_header expr false true)
  let result := result ||| (← run_test E expr G.mem G.memlen true expectedicase fuel)
  printf (.test_header expr true false)
  let result := result ||| (← run_test_backwards E expr G.mem G.memlen false expected fuel)
  printf (.test_header expr true true)
  let result := result ||| (← run_test_backwards E expr G.mem G.memlen true expectedicase fuel)
  pure result

/-- What `main` asks of its environment before the tests: the argument, the
file, the allocator and the conversion. `file` is the content `read` delivers;
`iconv inbuf outlen` is `iconv (cd, &inmem, &inlen, &outmem, &outlen)`: the
bytes it wrote and the `inlen` it left. -/
structure Env where
  argv1 : Bool
  open_ok : Bool
  fstat_ok : Bool
  st_size : Nat
  file : List Nat
  malloc_ok : Nat → Bool
  iconv_open_ok : Bool
  calloc_ok : Nat → Bool
  iconv : List Nat → Nat → List Nat × Nat

/-- The space `main` offers to the conversion: `outlen = 2 * memlen - 1` in
`size_t` arithmetic (line 107). -/
def outlen (memlen : Nat) : Nat := ((2 * memlen) % SIZE_MOD + SIZE_MOD - 1) % SIZE_MOD

/-- The corpus loader, lines 69-111 of `main`. `calloc (2, memlen)` fails when
the product overflows `size_t`. -/
def main_load (env : Env) : Prog Globals :=
  if !env.argv1 then fatal .usage
  else if !env.open_ok then fatal .cannot_open
  else if !env.fstat_ok then fatal .cannot_stat
  else if !env.malloc_ok ((env.st_size % SIZE_MOD + 1) % SIZE_MOD) then fatal .alloc_buffer
  else if (env.file.take (env.st_size % SIZE_MOD)).length ≠ env.st_size % SIZE_MOD then
    fatal .cannot_read
  else if (env.st_size % SIZE_MOD + 1) % SIZE_MOD ≤ env.st_size % SIZE_MOD then
    fatal .out_of_bounds
  else if !env.iconv_open_ok then fatal .no_conversion_descriptor
  else if SIZE_MOD ≤ 2 * (env.st_size % SIZE_MOD) then fatal .alloc_buffer
  else if !env.calloc_ok (2 * (env.st_size % SIZE_MOD)) then fatal .alloc_buffer
  else
    let memlen := env.st_size % SIZE_MOD
    let conv := env.iconv (env.file.take memlen) (outlen memlen)
    if 2 * memlen < conv.1.length then fatal .out_of_bounds
    else if conv.2 ≠ 0 then fatal .cannot_convert
    else
      pure { mem := env.file.take memlen ++ [NUL]
             memlen := memlen
             umem := conv.1 ++ List.replicate (2 * memlen - conv.1.length) NUL
             umemlen := conv.1.length }

/-- The pattern table of `main` (lines 119-125): expression, expected count,
expected count when case is ignored. The bytes of the two bracket expressions
are those of the source file as it is in the repository. -/
def patterns : List (String × Int × Int) :=
  [ ("[�������������������]", 2, 2),
    ("G.ran", 2, 3),
    ("G.\\\x7b1\\\x7dran", 2, 3),
    ("G.*ran", 3, 44),
    ("[����]", 0, 0),
    ("Uddeborg", 2, 2),
    (".Uddeborg", 2, 2) ]

/-- The tests of `main`, lines 119-125 and 132. -/
def main_tests (E : Engine) (G : Globals) (fuel : Nat) : Prog Nat := do
  let result ← test_expr E G fuel "[�������������������]" 2 2
  let result := result ||| (← test_expr E G fuel "G.ran" 2 3)
  let result := result ||| (← test_expr E G fuel "G.\\\x7b1\\\x7dran" 2 3)
  let result := result ||| (← test_expr E G fuel "G.*ran" 3 44)
  let result := result ||| (← test_expr E G fuel "[����]" 0 0)
  let result := result ||| (← test_expr E G fuel "Uddeborg" 2 2)
  let result := result ||| (← test_expr E G fuel ".Uddeborg" 2 2)
  pure result

/-- The function `main` (lines 54-133). -/
def main (env : Env) (E : Engine) (fuel : Nat) : Prog Nat := do
  let G ← main_load env
  main_tests E G fuel

/-! ## The conversion from ISO-8859-1 to UTF-8 (external to the repository) -/

/-- The UTF-8 encoding of one ISO-8859-1 byte: itself below `0x80`, two bytes
from `0x80` on. -/
def utf8_of_latin1 (b : Nat) : List Nat :=
  if b < 128 then [b] else [192 + b / 64, 128 + b % 64]

/-- Modelled from the spec: the encoding-conversion capability, `iconv` of the
C library from ISO-8859-1 to UTF-8, which is not part of the repository. It
converts the input byte by byte while the encoding of the next byte fits in
the output space left, and reports the bytes written and the input bytes it
did not consume. -/
def iconv_latin1_utf8 : List Nat → Nat → List Nat × Nat
  | [], _ => ([], 0)
  | b :: rest, space =>
    if (utf8_of_latin1 b).length ≤ space then
      let r := iconv_latin1_utf8 rest (space - (utf8_of_latin1 b).length)
      (utf8_of_latin1 b ++ r.1, r.2)
    else ([], rest.length + 1)

/-! ## Counts and sample inputs -/

/-- The count the loop of `run_test` reaches for `expr` and `icase` on the
globals, as `test_expr` runs it. -/
def forward_count (E : Engine) (G : Globals) (fuel : Nat) (expr : String) (icase : Bool) :
    Except Stop Int :=
  (run_test_loop (E.regexec expr icase G.mem) G.mem G.memlen fuel 0 0).ret

/-- The count the loop of `run_test_backwards` reaches for `expr` and `icase`
on the globals, as `test_expr` runs it. -/
def backward_count (E : Engine) (G : Globals) (fuel : Nat) (expr : String) (icase : Bool) :
    Except Stop Int :=
  (run_test_backwards_loop (E.re_search expr icase G.mem G.memlen) G.mem G.memlen
    fuel G.memlen 0).ret

/-- An engine that compiles every pattern and never finds a match. -/
def silent_engine : Engine where
  regcomp := fun _ _ => true
  regexec := fun _ _ _ _ => .REG_NOMATCH
  fastmap_malloc := true
  re_compile_pattern := fun _ _ => true
  re_compile_fastmap := fun _ _ => true
  re_search := fun _ _ _ _ _ => -1

/-- An environment whose corpus file holds the bytes `file`, in which every
system call and allocation succeeds, with the ISO-8859-1 to UTF-8 conversion. -/
def env_of_file (file : List Nat) : Env where
  argv1 := true
  open_ok := true
  fstat_ok := true
  st_size := file.length
  file := file
  malloc_ok := fun _ => true
  iconv_open_ok := true
  calloc_ok := fun _ => true
  iconv := iconv_latin1_utf8

/-- The least `s` in `[c, c + n)` with `p s`. -/
def least_from (p : Nat → Bool) : Nat → Nat → Option Nat
  | 0, _ => none
  | n + 1, c => if p c then some c else least_from p n (c + 1)

/-- The greatest `s` in `[0, c]` with `p s`. -/
def greatest_upto (p : Nat → Bool) : Nat → Option Nat
  | 0 => if p 0 then some 0 else none
  | c + 1 => if p (c + 1) then some (c + 1) else greatest_upto p c

/-- A forward search that knows the match starts `S` of a buffer of length
`memlen`: from cursor `c` it reports the least element of `S` in `[c, memlen]`,
as the offset `rm_so` from the cursor. -/
def regexec_of_starts (S : List Nat) (memlen : Nat) (c : Nat) : RegexecResult :=
  match least_from (fun s => decide (s ∈ S)) (memlen + 1 - c) c with
  | some s => .REG_NOERROR ((s : Int) - (c : Int))
  | none => .REG_NOMATCH

/-- A backward search that knows the match starts `S`: from cursor `c` it
reports the greatest element of `S` in `[0, c]`, and `-1` when there is none. -/
def re_search_of_starts (S : List Nat) (c : Nat) : Int :=
  match greatest_upto (fun s => decide (s ∈ S)) c with
  | some s => (s : Int)
  | none => -1

/-- The forward search for the pattern `a` in the buffer `a NUL a`, whose
strings are `a` at offsets 0 and 2 and empty at offsets 1 and 3. -/
def nul_split_regexec (c : Nat) : RegexecResult :=
  if c = 0 ∨ c = 2 then .REG_NOERROR 0 else .REG_NOMATCH

/-- The buffer `a b NL a b NL` with its terminator; `memlen` is 6. -/
def two_lines : List Nat := [97, 98, 10, 97, 98, 10, 0]

/-! ## The count the specification gives both iterators -/

/-- The number of the line that holds index `t` of the buffer: the number of
newlines before `t`. -/
def line_index (mem : List Nat) : Nat → Nat
  | 0 => 0
  | t + 1 => line_index mem t + (if mem[t]? = some NL then 1 else 0)

/-- The count in the words of the specification: the number of distinct lines
of the buffer that hold an element of the set `S` of match starts. -/
def spec_line_count (mem : List Nat) (S : Finset Nat) : Nat :=
  (S.image (line_index mem)).card

/-- The buffer `a b NL a b` with its terminator; `memlen` is 5 and the last
line has no newline. -/
def open_last_line : List Nat := [97, 98, 10, 97, 98, 0]

/-- The number of bytes of the UTF-8 text of an ISO-8859-1 input. -/
def utf8_length : List Nat → Nat
  | [] => 0
  | b :: rest => (utf8_of_latin1 b).length + utf8_length rest

/-! ## Headers, passes and a buffer-sensitive engine -/

/-- The headers among the events of an output, in print order. -/
def test_headers : List Event → List Event
  | [] => []
  | .test_header expr backwards icase :: rest =>
    .test_header expr backwards icase :: test_headers rest
  | .match_line _ _ _ :: rest => test_headers rest

/-- The number of passes through the body of the loop of `run_test`: the loop
of `run_test_loop` with a counter of its passes in place of its output. A pass
that leaves by `break` or stops the program counts. -/
def run_test_iterations (regexec : Nat → RegexecResult) (mem : List Nat) (memlen : Nat) :
    Nat → Nat → Int → Nat
  | 0, _, _ => 0
  | fuel + 1, offset, cnt =>
    if offset < memlen then
      match run_test_body regexec mem offset cnt with
      | .brk => 1
      | .stop _ => 1
      | .next offset' cnt' _ _ =>
        1 + run_test_iterations regexec mem memlen fuel offset' cnt'
    else 0

/-- The number of passes through the body of the loop of `run_test_backwards`:
the loop of `run_test_backwards_loop` with a counter of its passes in place of
its output. -/
def run_test_backwards_iterations (re_search : Nat → Int) (mem : List Nat) (memlen : Nat) :
    Nat → Nat → Int → Nat
  | 0, _, _ => 0
  | fuel + 1, offset, cnt =>
    if offset ≤ memlen then
      match run_test_backwards_body re_search mem offset cnt with
      | .brk => 1
      | .stop _ => 1
      | .next offset' cnt' _ _ =>
        1 + run_test_backwards_iterations re_search mem memlen fuel offset' cnt'
    else 0

/-- An engine that looks at the buffer it is given: it compiles every pattern,
and finds a match at index 0 exactly when the buffer begins with the byte
`0xC3`, the first byte of the UTF-8 text of an ISO-8859-1 byte from `0xC0` on. -/
def utf8_only_engine : Engine where
  regcomp := fun _ _ => true
  regexec := fun _ _ mem offset =>
    if mem.head? = some 195 ∧ offset = 0 then .REG_NOERROR 0 else .REG_NOMATCH
  fastmap_malloc := true
  re_compile_pattern := fun _ _ => true
  re_compile_fastmap := fun _ _ => true
  re_search := fun _ _ mem _ _ => if mem.head? = some 195 then 0 else -1

/-! ## Facts about the scans -/

theorem line_start_spec (mem : List Nat) :
    ∀ M, M ≤ mem.length →
      ∃ ls, (line_start mem M).1 = some ls ∧ ls ≤ M ∧
        (ls = 0 ∨ (0 < ls ∧ mem[ls - 1]? = some NL)) ∧
        (∀ i, ls ≤ i → i < M → mem[i]? ≠ some NL) ∧
        (∀ j ∈ (line_start mem M).2, ls ≤ j + 1 ∧ j < M) := by
  intro M
  induction M with
  | zero =>
    intro _
    exact ⟨0, rfl, le_refl _, Or.inl rfl, by intro i _ h; omega, by simp [line_start]⟩
  | succ n ih =>
    intro h
    have hn : n < mem.length := by omega
    obtain ⟨ls, h1, h2, h3, h4, h5⟩ := ih (by omega)
    by_cases hc : mem[n] = NL
    · refine ⟨n + 1, ?_, le_refl _, Or.inr ⟨by omega, ?_⟩, ?_, ?_⟩
      · simp [line_start, List.getElem?_eq_getElem hn, hc]
      · simp [List.getElem?_eq_getElem hn, hc]
      · intro i hi hi2; omega
      · simp [line_start, List.getElem?_eq_getElem hn, hc]
    · refine ⟨ls, ?_, by omega, h3, ?_, ?_⟩
      · simp [line_start, List.getElem?_eq_getElem hn, hc, h1]
      · intro i hi hi2
        by_cases hin : i = n
        · subst hin
          simp [List.getElem?_eq_getElem hn, hc]
        · exact h4 i hi (by omega)
      · intro j hj
        simp only [line_start, List.getElem?_eq_getElem hn, hc, ne_eq, not_false_eq_true,
          if_true, List.mem_cons] at hj
        rcases hj with hj | hj
        · subst hj; omega
        · have := h5 j hj
          omega

theorem line_end_from_spec :
    ∀ (rest : List Nat) (ep : Nat),
      (∀ e, (line_end_from rest ep).1 = some e →
        ep ≤ e ∧ (rest[e - ep]? = some NUL ∨ rest[e - ep]? = some NL) ∧
        (∀ j, j < e - ep → rest[j]? ≠ some NUL ∧ rest[j]? ≠ some NL) ∧
        (∀ j ∈ (line_end_from rest ep).2, ep ≤ j ∧ j ≤ e)) ∧
      ((line_end_from rest ep).1 = none →
        ∀ j : Nat, rest[j]? ≠ some NUL ∧ rest[j]? ≠ some NL) := by
  intro rest
  induction rest with
  | nil =>
    intro ep
    constructor
    · intro e he
      simp [line_end_from] at he
    · intro _ j
      simp
  | cons c rest ih =>
    intro ep
    by_cases hc : c ≠ NUL ∧ c ≠ NL
    · have hstep : line_end_from (c :: rest) ep
          = ((line_end_from rest (ep + 1)).1, ep :: (line_end_from rest (ep + 1)).2) := by
        simp [line_end_from, hc]
      obtain ⟨ih1, ih2⟩ := ih (ep + 1)
      constructor
      · intro e he
        rw [hstep] at he
        obtain ⟨a1, a2, a3, a4⟩ := ih1 e he
        have hsub : e - ep = (e - (ep + 1)) + 1 := by omega
        refine ⟨by omega, ?_, ?_, ?_⟩
        · rw [hsub]
          simpa using a2
        · intro j hj
          cases j with
          | zero =>
            simp only [List.getElem?_cons_zero, ne_eq, Option.some.injEq]
            exact hc
          | succ k =>
            simpa using a3 k (by omega)
        · intro j hj
          rw [hstep] at hj
          simp only [List.mem_cons] at hj
          rcases hj with hj | hj
          · omega
          · have := a4 j hj
            omega
      · intro he j
        rw [hstep] at he
        cases j with
        | zero =>
          simp only [List.getElem?_cons_zero, ne_eq, Option.some.injEq]
          exact hc
        | succ k => simpa using ih2 he k
    · have hstep : line_end_from (c :: rest) ep = (some ep, [ep]) := by
        simp only [line_end_from, hc, if_false]
      constructor
      · intro e he
        rw [hstep] at he
        simp only [Option.some.injEq] at he
        subst he
        refine ⟨le_refl _, ?_, ?_, ?_⟩
        · simp only [Nat.sub_self, List.getElem?_cons_zero, Option.some.injEq]
          by_contra hcon
          push_neg at hcon
          exact hc hcon
        · intro j hj
          omega
        · intro j hj
          rw [hstep] at hj
          simp at hj
          omega
      · intro he
        rw [hstep] at he
        simp at he

/-- On a buffer whose byte `memlen` is NUL the rightward scan from `M ≤ memlen`
stops at the first NUL or newline at or after `M`, without leaving
`[M, memlen]`. -/
theorem line_end_spec (mem : List Nat) (memlen M : Nat)
    (hnul : mem[memlen]? = some NUL) (hM : M ≤ memlen) :
    ∃ le, (line_end mem M).1 = some le ∧ M ≤ le ∧ le ≤ memlen ∧
      (mem[le]? = some NUL ∨ mem[le]? = some NL) ∧
      (∀ i, M ≤ i → i < le → mem[i]? ≠ some NUL ∧ mem[i]? ≠ some NL) ∧
      (∀ j ∈ (line_end mem M).2, M ≤ j ∧ j ≤ le) := by
  obtain ⟨h1, h2⟩ := line_end_from_spec (mem.drop M) M
  have hdrop : ∀ k, (mem.drop M)[k]? = mem[M + k]? := by
    intro k
    simp [List.getElem?_drop]
  cases hres : (line_end_from (mem.drop M) M).1 with
  | none =>
    exfalso
    have := (h2 hres (memlen - M)).1
    rw [hdrop, show M + (memlen - M) = memlen by omega] at this
    exact this hnul
  | some e =>
    obtain ⟨a1, a2, a3, a4⟩ := h1 e hres
    rw [hdrop, show M + (e - M) = e by omega] at a2
    have hle : e ≤ memlen := by
      by_contra hcon
      have := (a3 (memlen - M) (by omega)).1
      rw [hdrop, show M + (memlen - M) = memlen by omega] at this
      exact this hnul
    refine ⟨e, hres, a1, hle, a2, ?_, a4⟩
    intro i hi hi2
    have := a3 (i - M) (by omega)
    rw [hdrop, show M + (i - M) = i by omega] at this
    exact this

theorem lt_length_of_getElem?_eq_some {mem : List Nat} {i c : Nat}
    (h : mem[i]? = some c) : i < mem.length := by
  by_contra hcon
  rw [List.getElem?_eq_none (by omega)] at h
  exact Option.noConfusion h

theorem strlen_from_spec :
    ∀ (rest : List Nat),
      (∀ n, strlen_from rest = some n →
        rest[n]? = some NUL ∧ ∀ j, j < n → rest[j]? ≠ some NUL) ∧
      (strlen_from rest = none → ∀ j : Nat, rest[j]? ≠ some NUL) := by
  intro rest
  induction rest with
  | nil =>
    constructor
    · intro n hn
      simp [strlen_from] at hn
    · intro _ j
      simp
  | cons c rest ih =>
    obtain ⟨ih1, ih2⟩ := ih
    by_cases hc : c = NUL
    · constructor
      · intro n hn
        simp only [strlen_from, hc, if_true, Option.some.injEq] at hn
        subst hn
        exact ⟨by simp [hc], by intro j hj; omega⟩
      · intro hn
        simp [strlen_from, hc] at hn
    · constructor
      · intro n hn
        simp only [strlen_from, hc, if_false, Option.map_eq_some'] at hn
        obtain ⟨m, hm, rfl⟩ := hn
        obtain ⟨b1, b2⟩ := ih1 m hm
        refine ⟨by simpa using b1, ?_⟩
        intro j hj
        cases j with
        | zero => simpa using hc
        | succ k => simpa using b2 k (by omega)
      · intro hn j
        simp only [strlen_from, hc, if_false, Option.map_eq_none'] at hn
        cases j with
        | zero => simpa using hc
        | succ k => simpa using ih2 hn k

/-- The string at `mem + offset` ends at or before the terminator of the
buffer. -/
theorem strlen_spec (mem : List Nat) (memlen offset : Nat)
    (hnul : mem[memlen]? = some NUL) (ho : offset ≤ memlen) :
    ∃ n, strlen mem offset = some n ∧ offset + n ≤ memlen := by
  obtain ⟨h1, h2⟩ := strlen_from_spec (mem.drop offset)
  have hdrop : ∀ k, (mem.drop offset)[k]? = mem[offset + k]? := by
    intro k
    simp [List.getElem?_drop]
  cases hres : strlen_from (mem.drop offset) with
  | none =>
    exfalso
    have := h2 hres (memlen - offset)
    rw [hdrop, show offset + (memlen - offset) = memlen by omega] at this
    exact this hnul
  | some n =>
    refine ⟨n, hres, ?_⟩
    by_contra hcon
    have := (h1 n hres).2 (memlen - offset) (by omega)
    rw [hdrop, show offset + (memlen - offset) = memlen by omega] at this
    exact this hnul

/-! ## The line-context extraction (C1, C2, C7) -/

/-- C1, as stated, fails: in the buffer `a NUL b NL` with terminator at index 4
the rightward scan from match start 0 stops at the embedded NUL at index 1,
which is neither `memlen` nor the position of a newline. -/
theorem C1_line_end_stops_at_embedded_nul :
    ([97, 0, 98, 10, 0] : List Nat)[4]? = some NUL ∧
    ¬ ∃ ls le, (line_start [97, 0, 98, 10, 0] 0).1 = some ls ∧
        (line_end [97, 0, 98, 10, 0] 0).1 = some le ∧
        (ls = 0 ∨ (0 < ls ∧ ([97, 0, 98, 10, 0] : List Nat)[ls - 1]? = some NL ∧
          ∀ i, ls ≤ i → i < 0 → ([97, 0, 98, 10, 0] : List Nat)[i]? ≠ some NL)) ∧
        (le = 4 ∨ (0 ≤ le ∧ ([97, 0, 98, 10, 0] : List Nat)[le]? = some NL ∧
          ∀ i, 0 ≤ i → i < le → ([97, 0, 98, 10, 0] : List Nat)[i]? ≠ some NL)) := by
  refine ⟨by decide, ?_⟩
  rintro ⟨ls, le, _, h2, _, h4⟩
  have he : (line_end [97, 0, 98, 10, 0] 0).1 = some 1 := by decide
  rw [he] at h2
  simp only [Option.some.injEq] at h2
  subst h2
  rcases h4 with h | ⟨_, h, _⟩
  · omega
  · revert h
    decide

/-- C1, amended: for a buffer with `mem[memlen] = NUL` and a match start
`M ≤ memlen`, `line_start` is 0 when no newline lies before `M` and otherwise
one past the nearest newline strictly before `M`; `line_end` is the position
of the first byte at or after `M` that is a NUL or a newline, and so lies in
`[M, memlen]`; when no NUL lies in `[M, memlen)` it is `memlen` or the position
of the first newline at or after `M`. -/
theorem C1_line_context (mem : List Nat) (memlen M : Nat)
    (hnul : mem[memlen]? = some NUL) (hM : M ≤ memlen) :
    ∃ ls le, (line_start mem M).1 = some ls ∧ (line_end mem M).1 = some le ∧
      ((ls = 0 ∧ ∀ i, i < M → mem[i]? ≠ some NL) ∨
       (0 < ls ∧ ls ≤ M ∧ mem[ls - 1]? = some NL ∧
          ∀ i, ls ≤ i → i < M → mem[i]? ≠ some NL)) ∧
      (M ≤ le ∧ le ≤ memlen ∧ (mem[le]? = some NUL ∨ mem[le]? = some NL) ∧
        ∀ i, M ≤ i → i < le → mem[i]? ≠ some NUL ∧ mem[i]? ≠ some NL) ∧
      ((∀ i, M ≤ i → i < memlen → mem[i]? ≠ some NUL) →
        (le = memlen ∧ ∀ i, M ≤ i → i < memlen → mem[i]? ≠ some NL) ∨
        (le < memlen ∧ mem[le]? = some NL ∧
          ∀ i, M ≤ i → i < le → mem[i]? ≠ some NL)) := by
  have hlen := lt_length_of_getElem?_eq_some hnul
  obtain ⟨ls, a1, a2, a3, a4, _⟩ := line_start_spec mem M (by omega)
  obtain ⟨le, b1, b2, b3, b4, b5, _⟩ := line_end_spec mem memlen M hnul hM
  refine ⟨ls, le, a1, b1, ?_, ⟨b2, b3, b4, b5⟩, ?_⟩
  · rcases a3 with h | ⟨h, h'⟩
    · exact Or.inl ⟨h, fun i hi => a4 i (by omega) hi⟩
    · exact Or.inr ⟨h, a2, h', a4⟩
  · intro hno
    by_cases hle : le = memlen
    · left
      subst hle
      exact ⟨rfl, fun i hi hi2 => (b5 i hi hi2).2⟩
    · right
      refine ⟨by omega, ?_, fun i hi hi2 => (b5 i hi hi2).2⟩
      rcases b4 with h | h
      · exact absurd h (hno le b2 (by omega))
      · exact h

/-- C1, amended, at the buffer `a NL b` and match start 2. -/
theorem C1_line_context_witness :
    ([97, 10, 98, 0] : List Nat)[3]? = some NUL ∧ 2 ≤ 3 ∧
    ∃ ls le, (line_start [97, 10, 98, 0] 2).1 = some ls ∧
      (line_end [97, 10, 98, 0] 2).1 = some le ∧
      ((ls = 0 ∧ ∀ i, i < 2 → ([97, 10, 98, 0] : List Nat)[i]? ≠ some NL) ∨
       (0 < ls ∧ ls ≤ 2 ∧ ([97, 10, 98, 0] : List Nat)[ls - 1]? = some NL ∧
          ∀ i, ls ≤ i → i < 2 → ([97, 10, 98, 0] : List Nat)[i]? ≠ some NL)) ∧
      (2 ≤ le ∧ le ≤ 3 ∧ (([97, 10, 98, 0] : List Nat)[le]? = some NUL ∨
          ([97, 10, 98, 0] : List Nat)[le]? = some NL) ∧
        ∀ i, 2 ≤ i → i < le → ([97, 10, 98, 0] : List Nat)[i]? ≠ some NUL ∧
          ([97, 10, 98, 0] : List Nat)[i]? ≠ some NL) ∧
      ((∀ i, 2 ≤ i → i < 3 → ([97, 10, 98, 0] : List Nat)[i]? ≠ some NUL) →
        (le = 3 ∧ ∀ i, 2 ≤ i → i < 3 → ([97, 10, 98, 0] : List Nat)[i]? ≠ some NL) ∨
        (le < 3 ∧ ([97, 10, 98, 0] : List Nat)[le]? = some NL ∧
          ∀ i, 2 ≤ i → i < le → ([97, 10, 98, 0] : List Nat)[i]? ≠ some NL)) :=
  ⟨by decide, by decide, C1_line_context [97, 10, 98, 0] 3 2 (by decide) (by decide)⟩

/-- C2: for a buffer with `mem[memlen] = NUL` and a match start `M ≤ memlen`
both scans return, the extracted range satisfies
`line_start ≤ M ≤ line_end ≤ memlen`, and no byte at an index in
`[line_start, line_end)` is a newline. -/
theorem C2_line_range_has_no_newline (mem : List Nat) (memlen M : Nat)
    (hnul : mem[memlen]? = some NUL) (hM : M ≤ memlen) :
    ∃ ls le, (line_start mem M).1 = some ls ∧ (line_end mem M).1 = some le ∧
      ls ≤ M ∧ M ≤ le ∧ le ≤ memlen ∧
      ∀ i, ls ≤ i → i < le → mem[i]? ≠ some NL := by
  have hlen := lt_length_of_getElem?_eq_some hnul
  obtain ⟨ls, a1, a2, _, a4, _⟩ := line_start_spec mem M (by omega)
  obtain ⟨le, b1, b2, b3, _, b5, _⟩ := line_end_spec mem memlen M hnul hM
  refine ⟨ls, le, a1, b1, a2, b2, b3, ?_⟩
  intro i hi hi2
  by_cases h : i < M
  · exact a4 i hi h
  · exact (b5 i (by omega) hi2).2

/-- C2 at the buffer `a b NL c d NL e` and match start 4. -/
theorem C2_line_range_has_no_newline_witness :
    ([97, 98, 10, 99, 100, 10, 101, 0] : List Nat)[7]? = some NUL ∧ 4 ≤ 7 ∧
    ∃ ls le, (line_start [97, 98, 10, 99, 100, 10, 101, 0] 4).1 = some ls ∧
      (line_end [97, 98, 10, 99, 100, 10, 101, 0] 4).1 = some le ∧
      ls ≤ 4 ∧ 4 ≤ le ∧ le ≤ 7 ∧
      ∀ i, ls ≤ i → i < le →
        ([97, 98, 10, 99, 100, 10, 101, 0] : List Nat)[i]? ≠ some NL :=
  ⟨by decide, by decide,
    C2_line_range_has_no_newline [97, 98, 10, 99, 100, 10, 101, 0] 7 4 (by decide) (by decide)⟩

/-- C7: for a buffer with `mem[memlen] = NUL` and a match start `M ≤ memlen`
both scans return, every index read by the leftward scan (`sp[-1]`) is below
`M` and every index read by the rightward scan (`*ep`) is in `[M, line_end]`,
so all lie in `[0, memlen]`, and `line_end ≤ memlen`. In `run_test` the match
start is `offset + rm_so`; for `offset < memlen` the string at `mem + offset`
has a length `n` inside the buffer, and every `rm_so ≤ n` gives a match start
`offset + rm_so ≤ memlen`. -/
theorem C7_scans_stay_in_buffer (mem : List Nat) (memlen : Nat)
    (hnul : mem[memlen]? = some NUL) :
    (∀ M, M ≤ memlen →
      ∃ ls le, (line_start mem M).1 = some ls ∧ (line_end mem M).1 = some le ∧
        le ≤ memlen ∧
        (∀ j ∈ (line_start mem M).2, j < M ∧ j ≤ memlen ∧ j < mem.length) ∧
        (∀ j ∈ (line_end mem M).2, M ≤ j ∧ j ≤ le ∧ j ≤ memlen ∧ j < mem.length)) ∧
    (∀ offset, offset < memlen →
      ∃ n, strlen mem offset = some n ∧
        ∀ rm_so, rm_so ≤ n → offset + rm_so ≤ memlen) := by
  have hlen := lt_length_of_getElem?_eq_some hnul
  constructor
  · intro M hM
    obtain ⟨ls, a1, _, _, _, a5⟩ := line_start_spec mem M (by omega)
    obtain ⟨le, b1, _, b3, _, _, b6⟩ := line_end_spec mem memlen M hnul hM
    refine ⟨ls, le, a1, b1, b3, ?_, ?_⟩
    · intro j hj
      have := a5 j hj
      omega
    · intro j hj
      have := b6 j hj
      omega
  · intro offset ho
    obtain ⟨n, h1, h2⟩ := strlen_spec mem memlen offset hnul (by omega)
    exact ⟨n, h1, fun rm_so hr => by omega⟩

/-- C7 at the buffer `a b NL c d NL e`. -/
theorem C7_scans_stay_in_buffer_witness :
    ([97, 98, 10, 99, 100, 10, 101, 0] : List Nat)[7]? = some NUL ∧
    ((∀ M, M ≤ 7 →
      ∃ ls le, (line_start [97, 98, 10, 99, 100, 10, 101, 0] M).1 = some ls ∧
        (line_end [97, 98, 10, 99, 100, 10, 101, 0] M).1 = some le ∧
        le ≤ 7 ∧
        (∀ j ∈ (line_start [97, 98, 10, 99, 100, 10, 101, 0] M).2,
          j < M ∧ j ≤ 7 ∧ j < ([97, 98, 10, 99, 100, 10, 101, 0] : List Nat).length) ∧
        (∀ j ∈ (line_end [97, 98, 10, 99, 100, 10, 101, 0] M).2,
          M ≤ j ∧ j ≤ le ∧ j ≤ 7 ∧
            j < ([97, 98, 10, 99, 100, 10, 101, 0] : List Nat).length)) ∧
    (∀ offset, offset < 7 →
      ∃ n, strlen [97, 98, 10, 99, 100, 10, 101, 0] offset = some n ∧
        ∀ rm_so, rm_so ≤ n → offset + rm_so ≤ 7)) :=
  ⟨by decide, C7_scans_stay_in_buffer [97, 98, 10, 99, 100, 10, 101, 0] 7 (by decide)⟩

/-! ## The expectation check (C3) -/

theorem lor_eq_zero (a b : Nat) : a ||| b = 0 ↔ a = 0 ∧ b = 0 := by
  constructor
  · intro h
    have key : ∀ i, (a.testBit i || b.testBit i) = false := by
      intro i
      rw [← Nat.testBit_or, h]
      simp
    constructor <;> apply Nat.eq_of_testBit_eq <;> intro i <;> have := key i <;> simp_all
  · rintro ⟨rfl, rfl⟩
    rfl

theorem bind_def {α β : Type} (m : Prog α) (f : α → Prog β) : (m >>= f) = Prog.seq m f := rfl

theorem pure_def {α : Type} (a : α) : (pure a : Prog α) = ⟨[], .ok a⟩ := rfl

theorem seq_ret_ok {α β : Type} (m : Prog α) (f : α → Prog β) (b : β) :
    (Prog.seq m f).ret = .ok b ↔ ∃ a, m.ret = .ok a ∧ (f a).ret = .ok b := by
  unfold Prog.seq
  cases h : m.ret with
  | ok a => simp
  | error e => simp

theorem run_test_ret_ok (E : Engine) (expr : String) (mem : List Nat) (memlen : Nat)
    (icase : Bool) (expected : Int) (fuel : Nat) (r : Nat) :
    (run_test E expr mem memlen icase expected fuel).ret = .ok r ↔
      E.regcomp expr icase = true ∧ mem[memlen]? = some NUL ∧
      ∃ cnt, (run_test_loop (E.regexec expr icase mem) mem memlen fuel 0 0).ret = .ok cnt ∧
        r = if cnt = expected then 0 else 1 := by
  unfold run_test
  by_cases h1 : E.regcomp expr icase = true
  · cases h2 : mem[memlen]? with
    | none => simp [h1, fatal]
    | some c =>
      by_cases h3 : c = NUL
      · simp [h1, h3, bind_def, seq_ret_ok, pure_def]
        constructor
        · rintro ⟨cnt, hc, rfl⟩
          exact ⟨cnt, hc, by split_ifs <;> rfl⟩
        · rintro ⟨cnt, hc, rfl⟩
          exact ⟨cnt, hc, by split_ifs <;> rfl⟩
      · simp [h1, h3, fatal]
  · simp [h1, fatal]

theorem run_test_backwards_ret_ok (E : Engine) (expr : String) (mem : List Nat) (memlen : Nat)
    (icase : Bool) (expected : Int) (fuel : Nat) (r : Nat) :
    (run_test_backwards E expr mem memlen icase expected fuel).ret = .ok r ↔
      E.fastmap_malloc = true ∧ E.re_compile_pattern expr icase = true ∧
      E.re_compile_fastmap expr icase = true ∧ mem[memlen]? = some NUL ∧
      ∃ cnt, (run_test_backwards_loop (E.re_search expr icase mem memlen) mem memlen
          fuel memlen 0).ret = .ok cnt ∧
        r = if cnt = expected then 0 else 1 := by
  unfold run_test_backwards
  by_cases h0 : E.fastmap_malloc = true
  · by_cases h1 : E.re_compile_pattern expr icase = true
    · by_cases h4 : E.re_compile_fastmap expr icase = true
      · cases h2 : mem[memlen]? with
        | none => simp [h0, h1, h4, fatal]
        | some c =>
          by_cases h3 : c = NUL
          · simp [h0, h1, h4, h3, bind_def, seq_ret_ok, pure_def]
            constructor
            · rintro ⟨cnt, hc, rfl⟩
              exact ⟨cnt, hc, by split_ifs <;> rfl⟩
            · rintro ⟨cnt, hc, rfl⟩
              exact ⟨cnt, hc, by split_ifs <;> rfl⟩
          · simp [h0, h1, h4, h3, fatal]
      · simp [h0, h1, h4, fatal]
    · simp [h0, h1, fatal]
  · simp [h0, fatal]

theorem test_expr_ret_ok (E : Engine) (G : Globals) (fuel : Nat) (expr : String)
    (expected expectedicase : Int) (r : Nat) :
    (test_expr E G fuel expr expected expectedicase).ret = .ok r ↔
      ∃ r1 r2 r3 r4,
        (run_test E expr G.mem G.memlen false expected fuel).ret = .ok r1 ∧
        (run_test E expr G.mem G.memlen true expectedicase fuel).ret = .ok r2 ∧
        (run_test_backwards E expr G.mem G.memlen false expected fuel).ret = .ok r3 ∧
        (run_test_backwards E expr G.mem G.memlen true expectedicase fuel).ret = .ok r4 ∧
        r = r1 ||| r2 ||| r3 ||| r4 := by
  unfold test_expr
  simp only [bind_def, seq_ret_ok, pure_def, printf]
  constructor
  · rintro ⟨_, _, r1, h1, _, _, r2, h2, _, _, r3, h3, _, _, r4, h4, h⟩
    refine ⟨r1, r2, r3, r4, h1, h2, h3, h4, ?_⟩
    simpa [eq_comm] using h
  · rintro ⟨r1, r2, r3, r4, h1, h2, h3, h4, rfl⟩
    exact ⟨(), trivial, r1, h1, (), trivial, r2, h2, (), trivial, r3, h3, (), trivial, r4, h4, rfl⟩

theorem ite_count_eq_zero (cnt expected : Int) :
    (if cnt = expected then 0 else 1 : Nat) = 0 ↔ cnt = expected := by
  split_ifs with h <;> simp [h]

theorem test_expr_eq_zero (E : Engine) (G : Globals) (fuel : Nat) (expr : String)
    (expected expectedicase : Int) (r : Nat)
    (h : (test_expr E G fuel expr expected expectedicase).ret = .ok r) :
    r = 0 ↔
      forward_count E G fuel expr false = .ok expected ∧
      forward_count E G fuel expr true = .ok expectedicase ∧
      backward_count E G fuel expr false = .ok expected ∧
      backward_count E G fuel expr true = .ok expectedicase := by
  obtain ⟨r1, r2, r3, r4, h1, h2, h3, h4, rfl⟩ := (test_expr_ret_ok _ _ _ _ _ _ _).1 h
  obtain ⟨_, _, c1, e1, rfl⟩ := (run_test_ret_ok _ _ _ _ _ _ _ _).1 h1
  obtain ⟨_, _, c2, e2, rfl⟩ := (run_test_ret_ok _ _ _ _ _ _ _ _).1 h2
  obtain ⟨_, _, _, _, c3, e3, rfl⟩ := (run_test_backwards_ret_ok _ _ _ _ _ _ _ _).1 h3
  obtain ⟨_, _, _, _, c4, e4, rfl⟩ := (run_test_backwards_ret_ok _ _ _ _ _ _ _ _).1 h4
  simp only [lor_eq_zero, ite_count_eq_zero, forward_count, backward_count, e1, e2, e3, e4,
    Except.ok.injEq, and_assoc]

theorem main_tests_ret_ok (E : Engine) (G : Globals) (fuel : Nat) (r : Nat) :
    (main_tests E G fuel).ret = .ok r ↔
      ∃ r1 r2 r3 r4 r5 r6 r7,
        (test_expr E G fuel "[�������������������]" 2 2).ret = .ok r1 ∧
        (test_expr E G fuel "G.ran" 2 3).ret = .ok r2 ∧
        (test_expr E G fuel "G.\\\x7b1\\\x7dran" 2 3).ret = .ok r3 ∧
        (test_expr E G fuel "G.*ran" 3 44).ret = .ok r4 ∧
        (test_expr E G fuel "[����]" 0 0).ret = .ok r5 ∧
        (test_expr E G fuel "Uddeborg" 2 2).ret = .ok r6 ∧
        (test_expr E G fuel ".Uddeborg" 2 2).ret = .ok r7 ∧
        r = r1 ||| r2 ||| r3 ||| r4 ||| r5 ||| r6 ||| r7 := by
  unfold main_tests
  simp only [bind_def, seq_ret_ok, pure_def]
  constructor
  · rintro ⟨r1, h1, r2, h2, r3, h3, r4, h4, r5, h5, r6, h6, r7, h7, h⟩
    refine ⟨r1, r2, r3, r4, r5, r6, r7, h1, h2, h3, h4, h5, h6, h7, ?_⟩
    simpa [eq_comm] using h
  · rintro ⟨r1, r2, r3, r4, r5, r6, r7, h1, h2, h3, h4, h5, h6, h7, rfl⟩
    exact ⟨r1, h1, r2, h2, r3, h3, r4, h4, r5, h5, r6, h6, r7, h7, rfl⟩

/-- C3: when they return, `run_test` and `run_test_backwards` return 0 exactly
when the count of their loop equals `expected`, and 1 otherwise; `test_expr`
returns the bitwise OR of its four runs; and when `main` returns, the value is
0 if and only if each of the 7 x 4 runs of the pattern table counted exactly
its expected number. -/
theorem C3_exit_status (env : Env) (E : Engine) (fuel : Nat) :
    (∀ expr mem memlen icase expected r,
      (run_test E expr mem memlen icase expected fuel).ret = .ok r →
      ∃ cnt, (run_test_loop (E.regexec expr icase mem) mem memlen fuel 0 0).ret = .ok cnt ∧
        r = (if cnt = expected then 0 else 1)) ∧
    (∀ expr mem memlen icase expected r,
      (run_test_backwards E expr mem memlen icase expected fuel).ret = .ok r →
      ∃ cnt, (run_test_backwards_loop (E.re_search expr icase mem memlen) mem memlen
          fuel memlen 0).ret = .ok cnt ∧
        r = (if cnt = expected then 0 else 1)) ∧
    (∀ G expr expected expectedicase r,
      (test_expr E G fuel expr expected expectedicase).ret = .ok r →
      ∃ r1 r2 r3 r4,
        (run_test E expr G.mem G.memlen false expected fuel).ret = .ok r1 ∧
        (run_test E expr G.mem G.memlen true expectedicase fuel).ret = .ok r2 ∧
        (run_test_backwards E expr G.mem G.memlen false expected fuel).ret = .ok r3 ∧
        (run_test_backwards E expr G.mem G.memlen true expectedicase fuel).ret = .ok r4 ∧
        r = r1 ||| r2 ||| r3 ||| r4) ∧
    (∀ r, (main env E fuel).ret = .ok r →
      ∃ G, (main_load env).ret = .ok G ∧
        (r = 0 ↔ ∀ p ∈ patterns,
          forward_count E G fuel p.1 false = .ok p.2.1 ∧
          forward_count E G fuel p.1 true = .ok p.2.2 ∧
          backward_count E G fuel p.1 false = .ok p.2.1 ∧
          backward_count E G fuel p.1 true = .ok p.2.2)) := by
  refine ⟨?_, ?_, ?_, ?_⟩
  · intro expr mem memlen icase expected r h
    obtain ⟨_, _, cnt, hc, hr⟩ := (run_test_ret_ok _ _ _ _ _ _ _ _).1 h
    exact ⟨cnt, hc, hr⟩
  · intro expr mem memlen icase expected r h
    obtain ⟨_, _, _, _, cnt, hc, hr⟩ := (run_test_backwards_ret_ok _ _ _ _ _ _ _ _).1 h
    exact ⟨cnt, hc, hr⟩
  · intro G expr expected expectedicase r h
    exact (test_expr_ret_ok _ _ _ _ _ _ _).1 h
  · intro r h
    unfold main at h
    rw [bind_def, seq_ret_ok] at h
    obtain ⟨G, hG, ht⟩ := h
    refine ⟨G, hG, ?_⟩
    obtain ⟨r1, r2, r3, r4, r5, r6, r7, h1, h2, h3, h4, h5, h6, h7, rfl⟩ :=
      (main_tests_ret_ok _ _ _ _).1 ht
    simp only [lor_eq_zero, test_expr_eq_zero _ _ _ _ _ _ _ h1, test_expr_eq_zero _ _ _ _ _ _ _ h2,
      test_expr_eq_zero _ _ _ _ _ _ _ h3, test_expr_eq_zero _ _ _ _ _ _ _ h4,
      test_expr_eq_zero _ _ _ _ _ _ _ h5, test_expr_eq_zero _ _ _ _ _ _ _ h6,
      test_expr_eq_zero _ _ _ _ _ _ _ h7, patterns, List.forall_mem_cons, List.not_mem_nil,
      IsEmpty.forall_iff, implies_true, and_true, and_assoc]

/-- C3 at a two-byte corpus and an engine that never matches: `main` returns 1,
and not every run counted its expected number. -/
theorem C3_exit_status_witness :
    (main (env_of_file [97, 10]) silent_engine 3).ret = .ok 1 ∧
    ∃ G, (main_load (env_of_file [97, 10])).ret = .ok G ∧
      ((1 : Nat) = 0 ↔ ∀ p ∈ patterns,
        forward_count silent_engine G 3 p.1 false = .ok p.2.1 ∧
        forward_count silent_engine G 3 p.1 true = .ok p.2.2 ∧
        backward_count silent_engine G 3 p.1 false = .ok p.2.1 ∧
        backward_count silent_engine G 3 p.1 true = .ok p.2.2) :=
  ⟨rfl, (C3_exit_status (env_of_file [97, 10]) silent_engine 3).2.2.2 1 rfl⟩

/-! ## The forward iterator (C4) -/

theorem printf_seq_out {α : Type} (e : Event) (m : Prog α) :
    (printf e >>= fun _ => m).out = e :: m.out := rfl

theorem printf_seq_ret {α : Type} (e : Event) (m : Prog α) :
    (printf e >>= fun _ => m).ret = m.ret := rfl

theorem run_test_loop_zero (regexec : Nat → RegexecResult) (mem : List Nat) (memlen : Nat)
    (offset : Nat) (cnt : Int) :
    run_test_loop regexec mem memlen 0 offset cnt = ⟨[], .error .fuel⟩ := rfl

theorem run_test_loop_succ (regexec : Nat → RegexecResult) (mem : List Nat) (memlen : Nat)
    (fuel offset : Nat) (cnt : Int) :
    run_test_loop regexec mem memlen (fuel + 1) offset cnt =
      if offset < memlen then
        match run_test_body regexec mem offset cnt with
        | .brk => pure cnt
        | .stop f => fatal f
        | .next offset' cnt' sp ep => do
          printf (.match_line cnt' sp ep)
          run_test_loop regexec mem memlen fuel offset' cnt'
      else pure cnt := rfl

/-- What a pass through the body of the forward loop that runs to its end has
done. -/
theorem run_test_body_next (regexec : Nat → RegexecResult) (mem : List Nat)
    (offset : Nat) (cnt : Int) (offset' : Nat) (cnt' : Int) (sp ep : Nat)
    (h : run_test_body regexec mem offset cnt = .next offset' cnt' sp ep) :
    ∃ rm_so, regexec offset = .REG_NOERROR rm_so ∧ 0 ≤ rm_so ∧
      (line_start mem (offset + rm_so.toNat)).1 = some sp ∧
      (line_end mem (offset + rm_so.toNat)).1 = some ep ∧
      offset' = (ep + 1) % SIZE_MOD ∧ cnt' = cnt + 1 ∧ cnt + 1 ≤ INT_MAX := by
  unfold run_test_body at h
  cases hr : regexec offset with
  | REG_NOMATCH => simp [hr] at h
  | failure err => simp [hr] at h
  | REG_NOERROR rm_so =>
    simp only [hr] at h
    by_cases h0 : rm_so < 0
    · simp [h0] at h
    · simp only [h0, if_false] at h
      cases hs : (line_start mem (offset + rm_so.toNat)).1 with
      | none => simp [hs] at h
      | some sp0 =>
        cases he : (line_end mem (offset + rm_so.toNat)).1 with
        | none => simp [hs, he] at h
        | some ep0 =>
          simp only [hs, he] at h
          by_cases hov : INT_MAX < cnt + 1
          · simp [hov] at h
          · simp only [hov, if_false, Step.next.injEq] at h
            obtain ⟨a, b, c, d⟩ := h
            subst a b c d
            exact ⟨rm_so, rfl, by omega, hs, he, rfl, rfl, by omega⟩

/-- The pass of the forward loop at a match inside the buffer. -/
theorem run_test_body_of_match (regexec : Nat → RegexecResult) (mem : List Nat)
    (memlen offset : Nat) (cnt : Int) (rm_so : Int)
    (hnul : mem[memlen]? = some NUL)
    (hr : regexec offset = .REG_NOERROR rm_so) (h0 : 0 ≤ rm_so)
    (hM : offset + rm_so.toNat ≤ memlen) :
    ∃ sp ep, (line_start mem (offset + rm_so.toNat)).1 = some sp ∧
      (line_end mem (offset + rm_so.toNat)).1 = some ep ∧
      run_test_body regexec mem offset cnt =
        if INT_MAX < cnt + 1 then .stop .int_overflow
        else .next ((ep + 1) % SIZE_MOD) (cnt + 1) sp ep := by
  have hlen := lt_length_of_getElem?_eq_some hnul
  obtain ⟨ls, a1, _⟩ := line_start_spec mem (offset + rm_so.toNat) (by omega)
  obtain ⟨le, a2, _⟩ := line_end_spec mem memlen (offset + rm_so.toNat) hnul hM
  refine ⟨ls, le, a1, a2, ?_⟩
  unfold run_test_body
  have h0' : ¬ rm_so < 0 := by omega
  simp only [hr, h0', if_false, a1, a2]

/-- The line starts printed by the forward loop from a cursor that begins a
line (or lies past the buffer), on a buffer without a NUL before `memlen`:
none is before the cursor, and they increase strictly. -/
theorem run_test_loop_line_starts (regexec : Nat → RegexecResult) (mem : List Nat)
    (memlen : Nat) (hnul : mem[memlen]? = some NUL) (hsize : memlen + 1 < SIZE_MOD)
    (hengine : ∀ c rm_so, c < memlen → regexec c = .REG_NOERROR rm_so →
      c + rm_so.toNat ≤ memlen)
    (hno : ∀ i, i < memlen → mem[i]? ≠ some NUL) :
    ∀ fuel offset cnt,
      (offset = 0 ∨ memlen < offset ∨ mem[offset - 1]? = some NL) →
      (∀ sp ∈ line_starts (run_test_loop regexec mem memlen fuel offset cnt).out,
        offset ≤ sp) ∧
      (line_starts (run_test_loop regexec mem memlen fuel offset cnt).out).Pairwise
        (· < ·) := by
  have hlen := lt_length_of_getElem?_eq_some hnul
  intro fuel
  induction fuel with
  | zero =>
    intro offset cnt _
    simp [run_test_loop_zero, line_starts]
  | succ fuel ih =>
    intro offset cnt hstart
    rw [run_test_loop_succ]
    by_cases hlt : offset < memlen
    · simp only [hlt, if_true]
      cases hb : run_test_body regexec mem offset cnt with
      | brk => simp [pure_def, line_starts]
      | stop f => simp [fatal, line_starts]
      | next offset' cnt' sp ep =>
        obtain ⟨rm_so, hr, h0, hs, he, ho, _, _⟩ :=
          run_test_body_next regexec mem offset cnt offset' cnt' sp ep hb
        have hM := hengine offset rm_so hlt hr
        obtain ⟨ls, a1, a2, a3, a4, _⟩ :=
          line_start_spec mem (offset + rm_so.toNat) (by omega)
        obtain ⟨le, b1, b2, b3, b4, b5, _⟩ :=
          line_end_spec mem memlen (offset + rm_so.toNat) hnul hM
        rw [hs] at a1
        rw [he] at b1
        simp only [Option.some.injEq] at a1 b1
        subst a1 b1
        have hmod : (ep + 1) % SIZE_MOD = ep + 1 := Nat.mod_eq_of_lt (by omega)
        rw [hmod] at ho
        subst ho
        have hsp : offset ≤ sp := by
          rcases hstart with h | h | h
          · omega
          · omega
          · by_contra hcon
            have hpos : 0 < offset := by
              by_contra hz
              have : offset = 0 := by omega
              omega
            exact a4 (offset - 1) (by omega) (by omega) h
        have hnext : ep + 1 = 0 ∨ memlen < ep + 1 ∨ mem[ep + 1 - 1]? = some NL := by
          rcases b4 with h | h
          · right; left
            by_contra hcon
            exact hno ep (by omega) h
          · right; right
            simpa using h
        obtain ⟨i1, i2⟩ := ih (ep + 1) cnt' hnext
        simp only [printf_seq_out, line_starts, List.mem_cons, List.pairwise_cons]
        refine ⟨?_, ?_, i2⟩
        · rintro x (rfl | hx)
          · exact hsp
          · have := i1 x hx
            omega
        · intro x hx
          have := i1 x hx
          omega
    · simp [hlt, pure_def, line_starts]

/-- The forward loop ends within `memlen - offset + 1` passes when the engine
reports match starts inside the buffer. -/
theorem run_test_loop_fuel (regexec : Nat → RegexecResult) (mem : List Nat)
    (memlen : Nat) (hnul : mem[memlen]? = some NUL) (hsize : memlen + 1 < SIZE_MOD)
    (hengine : ∀ c rm_so, c < memlen → regexec c = .REG_NOERROR rm_so →
      c + rm_so.toNat ≤ memlen) :
    ∀ fuel offset cnt, memlen - offset < fuel →
      (run_test_loop regexec mem memlen fuel offset cnt).ret ≠ .error .fuel := by
  intro fuel
  induction fuel with
  | zero =>
    intro offset cnt h
    omega
  | succ fuel ih =>
    intro offset cnt hfuel
    rw [run_test_loop_succ]
    by_cases hlt : offset < memlen
    · simp only [hlt, if_true]
      cases hb : run_test_body regexec mem offset cnt with
      | brk => simp [pure_def]
      | stop f => simp [fatal]
      | next offset' cnt' sp ep =>
        obtain ⟨rm_so, hr, h0, hs, he, ho, _, _⟩ :=
          run_test_body_next regexec mem offset cnt offset' cnt' sp ep hb
        have hM := hengine offset rm_so hlt hr
        obtain ⟨le, b1, b2, b3, _⟩ :=
          line_end_spec mem memlen (offset + rm_so.toNat) hnul hM
        rw [he] at b1
        simp only [Option.some.injEq] at b1
        subst b1
        have hmod : (ep + 1) % SIZE_MOD = ep + 1 := Nat.mod_eq_of_lt (by omega)
        rw [hmod] at ho
        subst ho
        simp only [printf_seq_ret]
        exact ih (ep + 1) cnt' (by omega)
    · simp [hlt, pure_def]

/-- C4, as stated, fails: in the buffer `a NUL a` (terminator at index 3) the
engine reports the match starts 0 and 2, each at its cursor and inside the
buffer; the loop counts two matches, and both have line start 0, because the
rightward scan stops at the embedded NUL and the leftward scan does not. -/
theorem C4_line_counted_twice_across_nul :
    ([97, 0, 97, 0] : List Nat)[3]? = some NUL ∧
    (∀ c rm_so, c < 3 → nul_split_regexec c = .REG_NOERROR rm_so →
      0 ≤ rm_so ∧ c + rm_so.toNat ≤ 3) ∧
    (run_test_loop nul_split_regexec [97, 0, 97, 0] 3 4 0 0).ret = .ok 2 ∧
    line_starts (run_test_loop nul_split_regexec [97, 0, 97, 0] 3 4 0 0).out = [0, 0] ∧
    ¬ (line_starts (run_test_loop nul_split_regexec [97, 0, 97, 0] 3 4 0 0).out).Pairwise
        (· < ·) := by
  refine ⟨by decide, ?_, rfl, by decide, by decide⟩
  intro c rm_so hc h
  unfold nul_split_regexec at h
  split_ifs at h
  · simp only [RegexecResult.REG_NOERROR.injEq] at h
    subst h
    simp
    omega

/-- C4, amended: for a buffer with `mem[memlen] = NUL` and an engine whose
reported match start lies inside the buffer, every pass of the loop of
`run_test` that counts a match sets the cursor to `line_end + 1` of the line
of the match start, strictly beyond the previous cursor, and the loop ends
within `memlen + 1` passes. When in addition no NUL lies before index
`memlen`, the line starts of the successive counted matches increase strictly,
so no line is counted twice. -/
theorem C4_forward_cursor_advances (regexec : Nat → RegexecResult) (mem : List Nat)
    (memlen : Nat) (hnul : mem[memlen]? = some NUL) (hsize : memlen + 1 < SIZE_MOD)
    (hengine : ∀ c rm_so, c < memlen → regexec c = .REG_NOERROR rm_so →
      c + rm_so.toNat ≤ memlen) :
    (∀ offset cnt offset' cnt' sp ep, offset < memlen →
      run_test_body regexec mem offset cnt = .next offset' cnt' sp ep →
      ∃ rm_so, regexec offset = .REG_NOERROR rm_so ∧ 0 ≤ rm_so ∧
        (line_start mem (offset + rm_so.toNat)).1 = some sp ∧
        (line_end mem (offset + rm_so.toNat)).1 = some ep ∧
        sp ≤ offset + rm_so.toNat ∧ offset + rm_so.toNat ≤ ep ∧
        offset' = ep + 1 ∧ offset < offset' ∧ cnt' = cnt + 1) ∧
    (∀ fuel, memlen < fuel →
      (run_test_loop regexec mem memlen fuel 0 0).ret ≠ .error .fuel) ∧
    ((∀ i, i < memlen → mem[i]? ≠ some NUL) →
      ∀ fuel,
        (line_starts (run_test_loop regexec mem memlen fuel 0 0).out).Pairwise (· < ·) ∧
        (line_starts (run_test_loop regexec mem memlen fuel 0 0).out).Nodup) := by
  have hlen := lt_length_of_getElem?_eq_some hnul
  refine ⟨?_, ?_, ?_⟩
  · intro offset cnt offset' cnt' sp ep hlt hb
    obtain ⟨rm_so, hr, h0, hs, he, ho, hc, _⟩ :=
      run_test_body_next regexec mem offset cnt offset' cnt' sp ep hb
    have hM := hengine offset rm_so hlt hr
    obtain ⟨ls, a1, a2, _⟩ := line_start_spec mem (offset + rm_so.toNat) (by omega)
    obtain ⟨le, b1, b2, b3, _⟩ := line_end_spec mem memlen (offset + rm_so.toNat) hnul hM
    rw [hs] at a1
    rw [he] at b1
    simp only [Option.some.injEq] at a1 b1
    subst a1 b1
    have hmod : (ep + 1) % SIZE_MOD = ep + 1 := Nat.mod_eq_of_lt (by omega)
    rw [hmod] at ho
    exact ⟨rm_so, hr, h0, hs, he, a2, b2, ho, by omega, hc⟩
  · intro fuel hfuel
    exact run_test_loop_fuel regexec mem memlen hnul hsize hengine fuel 0 0 (by omega)
  · intro hno fuel
    have h := (run_test_loop_line_starts regexec mem memlen hnul hsize hengine hno
      fuel 0 0 (Or.inl rfl)).2
    exact ⟨h, h.imp (fun hab => Nat.ne_of_lt hab)⟩

theorem least_from_spec (p : Nat → Bool) :
    ∀ n c,
      (∀ s, least_from p n c = some s →
        c ≤ s ∧ s < c + n ∧ p s = true ∧ ∀ t, c ≤ t → t < s → p t = false) ∧
      (least_from p n c = none → ∀ t, c ≤ t → t < c + n → p t = false) := by
  intro n
  induction n with
  | zero =>
    intro c
    constructor
    · intro s hs
      simp [least_from] at hs
    · intro _ t h1 h2
      omega
  | succ n ih =>
    intro c
    obtain ⟨ih1, ih2⟩ := ih (c + 1)
    by_cases hp : p c = true
    · constructor
      · intro s hs
        simp only [least_from, hp, if_true, Option.some.injEq] at hs
        subst hs
        exact ⟨le_refl _, by omega, hp, by intro t h1 h2; omega⟩
      · intro hs
        simp [least_from, hp] at hs
    · have hp' : p c = false := by simpa using hp
      constructor
      · intro s hs
        simp only [least_from, hp', Bool.false_eq_true, if_false] at hs
        obtain ⟨a1, a2, a3, a4⟩ := ih1 s hs
        refine ⟨by omega, by omega, a3, ?_⟩
        intro t h1 h2
        by_cases htc : t = c
        · subst htc
          exact hp'
        · exact a4 t (by omega) h2
      · intro hs t h1 h2
        simp only [least_from, hp', Bool.false_eq_true, if_false] at hs
        by_cases htc : t = c
        · subst htc
          exact hp'
        · exact ih2 hs t (by omega) (by omega)

theorem greatest_upto_spec (p : Nat → Bool) :
    ∀ c,
      (∀ s, greatest_upto p c = some s →
        s ≤ c ∧ p s = true ∧ ∀ t, s < t → t ≤ c → p t = false) ∧
      (greatest_upto p c = none → ∀ t, t ≤ c → p t = false) := by
  intro c
  induction c with
  | zero =>
    by_cases hp : p 0 = true
    · constructor
      · intro s hs
        simp only [greatest_upto, hp, if_true, Option.some.injEq] at hs
        subst hs
        exact ⟨le_refl _, hp, by intro t h1 h2; omega⟩
      · intro hs
        simp [greatest_upto, hp] at hs
    · have hp' : p 0 = false := by simpa using hp
      constructor
      · intro s hs
        simp [greatest_upto, hp'] at hs
      · intro _ t ht
        have : t = 0 := by omega
        subst this
        exact hp'
  | succ c ih =>
    obtain ⟨ih1, ih2⟩ := ih
    by_cases hp : p (c + 1) = true
    · constructor
      · intro s hs
        simp only [greatest_upto, hp, if_true, Option.some.injEq] at hs
        subst hs
        exact ⟨le_refl _, hp, by intro t h1 h2; omega⟩
      · intro hs
        simp [greatest_upto, hp] at hs
    · have hp' : p (c + 1) = false := by simpa using hp
      constructor
      · intro s hs
        simp only [greatest_upto, hp', Bool.false_eq_true, if_false] at hs
        obtain ⟨a1, a2, a3⟩ := ih1 s hs
        refine ⟨by omega, a2, ?_⟩
        intro t h1 h2
        by_cases htc : t = c + 1
        · subst htc
          exact hp'
        · exact a3 t h1 (by omega)
      · intro hs t ht
        simp only [greatest_upto, hp', Bool.false_eq_true, if_false] at hs
        by_cases htc : t = c + 1
        · subst htc
          exact hp'
        · exact ih2 hs t (by omega)

/-- The forward search built from `S` reports the least element of `S` in
`[c, memlen]`. -/
theorem regexec_of_starts_spec (S : List Nat) (memlen c : Nat) (hc : c ≤ memlen) :
    (∀ rm_so, regexec_of_starts S memlen c = .REG_NOERROR rm_so →
      0 ≤ rm_so ∧ c + rm_so.toNat ≤ memlen ∧ c + rm_so.toNat ∈ S ∧
      ∀ t ∈ S, c ≤ t → c + rm_so.toNat ≤ t) ∧
    (regexec_of_starts S memlen c = .REG_NOMATCH → ∀ t ∈ S, c ≤ t → memlen < t) ∧
    (∀ err, regexec_of_starts S memlen c ≠ .failure err) := by
  obtain ⟨h1, h2⟩ := least_from_spec (fun s => decide (s ∈ S)) (memlen + 1 - c) c
  unfold regexec_of_starts
  cases hres : least_from (fun s => decide (s ∈ S)) (memlen + 1 - c) c with
  | none =>
    refine ⟨by intro rm_so h; simp at h, ?_, by intro err h; simp at h⟩
    intro _ t ht hct
    by_contra hcon
    have := h2 hres t hct (by omega)
    simp [ht] at this
  | some s =>
    obtain ⟨a1, a2, a3, a4⟩ := h1 s hres
    refine ⟨?_, by intro h; simp at h, by intro err h; simp at h⟩
    intro rm_so h
    simp only [RegexecResult.REG_NOERROR.injEq] at h
    subst h
    have hs : c + ((s : Int) - (c : Int)).toNat = s := by omega
    rw [hs]
    refine ⟨by omega, by omega, by simpa using a3, ?_⟩
    intro t ht hct
    by_contra hcon
    have := a4 t hct (by omega)
    simp [ht] at this

/-- The backward search built from `S` reports the greatest element of `S` in
`[0, c]`. -/
theorem re_search_of_starts_spec (S : List Nat) (c : Nat) :
    (re_search_of_starts S c = -1 ∧ ∀ t ∈ S, c < t) ∨
    (∃ s : Nat, re_search_of_starts S c = (s : Int) ∧ s ≤ c ∧ s ∈ S ∧
      ∀ t ∈ S, t ≤ c → t ≤ s) := by
  obtain ⟨h1, h2⟩ := greatest_upto_spec (fun s => decide (s ∈ S)) c
  unfold re_search_of_starts
  cases hres : greatest_upto (fun s => decide (s ∈ S)) c with
  | none =>
    left
    refine ⟨rfl, ?_⟩
    intro t ht
    by_contra hcon
    have := h2 hres t (by omega)
    simp [ht] at this
  | some s =>
    right
    obtain ⟨a1, a2, a3⟩ := h1 s hres
    refine ⟨s, rfl, a1, by simpa using a2, ?_⟩
    intro t ht htc
    by_contra hcon
    have := a3 t (by omega) htc
    simp [ht] at this

/-- C4, amended, at the buffer `a b NL a b NL` with the match starts 1 and 4. -/
theorem C4_forward_cursor_advances_witness :
    two_lines[6]? = some NUL ∧ 6 + 1 < SIZE_MOD ∧
    (∀ c rm_so, c < 6 → regexec_of_starts [1, 4] 6 c = .REG_NOERROR rm_so →
      c + rm_so.toNat ≤ 6) ∧
    (∀ i, i < 6 → two_lines[i]? ≠ some NUL) ∧
    (run_test_loop (regexec_of_starts [1, 4] 6) two_lines 6 7 0 0).ret ≠ .error .fuel ∧
    (line_starts (run_test_loop (regexec_of_starts [1, 4] 6) two_lines 6 7 0 0).out).Pairwise
      (· < ·) ∧
    (line_starts (run_test_loop (regexec_of_starts [1, 4] 6) two_lines 6 7 0 0).out).Nodup :=
  have hE : ∀ c rm_so, c < 6 → regexec_of_starts [1, 4] 6 c = .REG_NOERROR rm_so →
      c + rm_so.toNat ≤ 6 :=
    fun c rm_so hc h => ((regexec_of_starts_spec [1, 4] 6 c (by omega)).1 rm_so h).2.1
  have hno : ∀ i, i < 6 → two_lines[i]? ≠ some NUL := by decide
  have h := C4_forward_cursor_advances (regexec_of_starts [1, 4] 6) two_lines 6
    (by decide) (by decide) hE
  ⟨by decide, by decide, hE, hno, h.2.1 7 (by decide), (h.2.2 hno 7).1, (h.2.2 hno 7).2⟩

/-! ## The backward iterator (C5, C10) -/

theorem run_test_backwards_loop_zero (re_search : Nat → Int) (mem : List Nat) (memlen : Nat)
    (offset : Nat) (cnt : Int) :
    run_test_backwards_loop re_search mem memlen 0 offset cnt = ⟨[], .error .fuel⟩ := rfl

theorem run_test_backwards_loop_succ (re_search : Nat → Int) (mem : List Nat)
    (memlen : Nat) (fuel offset : Nat) (cnt : Int) :
    run_test_backwards_loop re_search mem memlen (fuel + 1) offset cnt =
      if offset ≤ memlen then
        match run_test_backwards_body re_search mem offset cnt with
        | .brk => pure cnt
        | .stop f => fatal f
        | .next offset' cnt' sp ep => do
          printf (.match_line cnt' sp ep)
          run_test_backwards_loop re_search mem memlen fuel offset' cnt'
      else pure cnt := rfl

/-- What a pass through the body of the backward loop that runs to its end has
done. -/
theorem run_test_backwards_body_next (re_search : Nat → Int) (mem : List Nat)
    (offset : Nat) (cnt : Int) (offset' : Nat) (cnt' : Int) (sp ep : Nat)
    (h : run_test_backwards_body re_search mem offset cnt = .next offset' cnt' sp ep) :
    0 ≤ re_search offset ∧
      (line_start mem (re_search offset).toNat).1 = some sp ∧
      (line_end mem (re_search offset).toNat).1 = some ep ∧
      offset' = (sp + SIZE_MOD - 1) % SIZE_MOD ∧ cnt' = cnt + 1 ∧ cnt + 1 ≤ INT_MAX := by
  unfold run_test_backwards_body at h
  by_cases h1 : re_search offset = -1
  · simp [h1] at h
  · by_cases h2 : re_search offset = -2
    · simp [h2] at h
    · by_cases h3 : re_search offset < 0
      · simp [h1, h2, h3] at h
      · simp only [h1, h2, h3, if_false] at h
        cases hs : (line_start mem (re_search offset).toNat).1 with
        | none => simp [hs] at h
        | some sp0 =>
          cases he : (line_end mem (re_search offset).toNat).1 with
          | none => simp [hs, he] at h
          | some ep0 =>
            simp only [hs, he] at h
            by_cases hov : INT_MAX < cnt + 1
            · simp [hov] at h
            · simp only [hov, if_false, Step.next.injEq] at h
              obtain ⟨a, b, c, d⟩ := h
              subst a b c d
              exact ⟨by omega, rfl, rfl, rfl, rfl, by omega⟩

/-- Past the buffer the backward loop prints nothing. -/
theorem run_test_backwards_loop_past (re_search : Nat → Int) (mem : List Nat)
    (memlen : Nat) (fuel offset : Nat) (cnt : Int) (h : memlen < offset) :
    (run_test_backwards_loop re_search mem memlen fuel offset cnt).out = [] ∧
    (0 < fuel →
      (run_test_backwards_loop re_search mem memlen fuel offset cnt).ret = .ok cnt) := by
  cases fuel with
  | zero => simp [run_test_backwards_loop_zero]
  | succ fuel =>
    have h' : ¬ offset ≤ memlen := by omega
    simp [run_test_backwards_loop_succ, h', pure_def]

/-- The line starts printed by the backward loop: none is beyond the cursor,
and they decrease strictly. -/
theorem run_test_backwards_loop_line_starts (re_search : Nat → Int) (mem : List Nat)
    (memlen : Nat) (hnul : mem[memlen]? = some NUL) (hsize : memlen + 1 < SIZE_MOD)
    (hengine : ∀ c, c ≤ memlen → re_search c ≤ c) :
    ∀ fuel offset cnt,
      (∀ sp ∈ line_starts (run_test_backwards_loop re_search mem memlen fuel offset cnt).out,
        sp ≤ offset) ∧
      (line_starts (run_test_backwards_loop re_search mem memlen fuel offset cnt).out).Pairwise
        (· > ·) := by
  have hlen := lt_length_of_getElem?_eq_some hnul
  intro fuel
  induction fuel with
  | zero =>
    intro offset cnt
    simp [run_test_backwards_loop_zero, line_starts]
  | succ fuel ih =>
    intro offset cnt
    rw [run_test_backwards_loop_succ]
    by_cases hle : offset ≤ memlen
    · simp only [hle, if_true]
      cases hb : run_test_backwards_body re_search mem offset cnt with
      | brk => simp [pure_def, line_starts]
      | stop f => simp [fatal, line_starts]
      | next offset' cnt' sp ep =>
        obtain ⟨h0, hs, he, ho, _, _⟩ :=
          run_test_backwards_body_next re_search mem offset cnt offset' cnt' sp ep hb
        have hM := hengine offset hle
        obtain ⟨ls, a1, a2, _⟩ :=
          line_start_spec mem (re_search offset).toNat (by omega)
        rw [hs] at a1
        simp only [Option.some.injEq] at a1
        subst a1
        simp only [printf_seq_out, line_starts, List.mem_cons, List.pairwise_cons]
        by_cases hsp : sp = 0
        · subst hsp
          have hwrap : (0 + SIZE_MOD - 1) % SIZE_MOD = SIZE_MOD - 1 := by
            rw [Nat.zero_add]
            exact Nat.mod_eq_of_lt (by omega)
          rw [hwrap] at ho
          have hpast := (run_test_backwards_loop_past re_search mem memlen fuel offset'
            cnt' (by omega)).1
          simp [hpast, line_starts]
        · have hstep : (sp + SIZE_MOD - 1) % SIZE_MOD = sp - 1 := by
            rw [show sp + SIZE_MOD - 1 = (sp - 1) + SIZE_MOD by omega,
              Nat.add_mod_right]
            exact Nat.mod_eq_of_lt (by omega)
          rw [hstep] at ho
          subst ho
          obtain ⟨i1, i2⟩ := ih (sp - 1) cnt'
          refine ⟨?_, ?_, i2⟩
          · rintro x (rfl | hx)
            · omega
            · have := i1 x hx
              omega
          · intro x hx
            have := i1 x hx
            omega
    · simp [hle, pure_def, line_starts]

/-- The backward loop ends within `offset + 2` passes when the engine reports
match starts at or before the cursor. -/
theorem run_test_backwards_loop_fuel (re_search : Nat → Int) (mem : List Nat)
    (memlen : Nat) (hnul : mem[memlen]? = some NUL) (hsize : memlen + 1 < SIZE_MOD)
    (hengine : ∀ c, c ≤ memlen → re_search c ≤ c) :
    ∀ fuel offset cnt, offset ≤ memlen → offset + 1 < fuel →
      (run_test_backwards_loop re_search mem memlen fuel offset cnt).ret ≠ .error .fuel := by
  have hlen := lt_length_of_getElem?_eq_some hnul
  intro fuel
  induction fuel with
  | zero =>
    intro offset cnt _ h
    omega
  | succ fuel ih =>
    intro offset cnt hle hfuel
    rw [run_test_backwards_loop_succ]
    simp only [hle, if_true]
    cases hb : run_test_backwards_body re_search mem offset cnt with
    | brk => simp [pure_def]
    | stop f => simp [fatal]
    | next offset' cnt' sp ep =>
      obtain ⟨h0, hs, he, ho, _, _⟩ :=
        run_test_backwards_body_next re_search mem offset cnt offset' cnt' sp ep hb
      have hM := hengine offset hle
      obtain ⟨ls, a1, a2, _⟩ :=
        line_start_spec mem (re_search offset).toNat (by omega)
      rw [hs] at a1
      simp only [Option.some.injEq] at a1
      subst a1
      simp only [printf_seq_ret]
      by_cases hsp : sp = 0
      · subst hsp
        have hwrap : (0 + SIZE_MOD - 1) % SIZE_MOD = SIZE_MOD - 1 := by
          rw [Nat.zero_add]
          exact Nat.mod_eq_of_lt (by omega)
        rw [hwrap] at ho
        rw [(run_test_backwards_loop_past re_search mem memlen fuel offset' cnt'
          (by omega)).2 (by omega)]
        simp
      · have hstep : (sp + SIZE_MOD - 1) % SIZE_MOD = sp - 1 := by
          rw [show sp + SIZE_MOD - 1 = (sp - 1) + SIZE_MOD by omega,
            Nat.add_mod_right]
          exact Nat.mod_eq_of_lt (by omega)
        rw [hstep] at ho
        subst ho
        exact ih (sp - 1) cnt' (by omega) (by omega)

/-- C5, as stated, fails: in the buffer `a` (terminator at index 1) with the
cursor at `memlen = 1` and a match start 0 reported, the line start is 0 and
the new cursor `line_start - 1` is `2 ^ 64 - 1` in `size_t` arithmetic, which is
not smaller than the cursor 1 before the pass. -/
theorem C5_cursor_wraps_at_first_line :
    ([97, 0] : List Nat)[1]? = some NUL ∧
    0 ≤ re_search_of_starts [0] 1 ∧ re_search_of_starts [0] 1 ≤ ((1 : Nat) : Int) ∧
    run_test_backwards_body (re_search_of_starts [0]) [97, 0] 1 0
      = .next 18446744073709551615 1 0 1 ∧
    ¬ (18446744073709551615 < 1) := by
  refine ⟨by decide, by decide, by decide, by decide, by decide⟩

/-- C5, amended: `run_test_backwards` starts its loop with the cursor at
`memlen`; in a pass at a cursor `offset ≤ memlen` in which the engine reports
a match start in `[0, offset]`, the new cursor is `line_start - 1` in `size_t`
arithmetic: when `line_start > 0` it is strictly smaller than the cursor
before the pass, and when `line_start = 0` it is `SIZE_MOD - 1`, greater than
`memlen`, which ends the loop. -/
theorem C5_backward_cursor (re_search : Nat → Int) (mem : List Nat) (memlen : Nat)
    (offset : Nat) (cnt : Int)
    (hnul : mem[memlen]? = some NUL) (hsize : memlen + 1 < SIZE_MOD)
    (ho : offset ≤ memlen) (h0 : 0 ≤ re_search offset) (h1 : re_search offset ≤ offset) :
    (∀ (E : Engine) expr icase expected fuel,
      E.fastmap_malloc = true → E.re_compile_pattern expr icase = true →
      E.re_compile_fastmap expr icase = true →
      run_test_backwards E expr mem memlen icase expected fuel =
        (run_test_backwards_loop (E.re_search expr icase mem memlen) mem memlen
          fuel memlen 0 >>= fun n => pure (if n ≠ expected then 1 else 0))) ∧
    ∃ sp ep, (line_start mem (re_search offset).toNat).1 = some sp ∧
      (line_end mem (re_search offset).toNat).1 = some ep ∧
      run_test_backwards_body re_search mem offset cnt =
        (if INT_MAX < cnt + 1 then .stop .int_overflow
         else .next ((sp + SIZE_MOD - 1) % SIZE_MOD) (cnt + 1) sp ep) ∧
      ((0 < sp ∧ (sp + SIZE_MOD - 1) % SIZE_MOD = sp - 1 ∧ sp - 1 < offset) ∨
       (sp = 0 ∧ (sp + SIZE_MOD - 1) % SIZE_MOD = SIZE_MOD - 1 ∧
          memlen < SIZE_MOD - 1 ∧
          ∀ fuel c, (run_test_backwards_loop re_search mem memlen (fuel + 1)
            (SIZE_MOD - 1) c) = pure c)) := by
  have hlen := lt_length_of_getElem?_eq_some hnul
  constructor
  · intro E expr icase expected fuel e1 e2 e3
    simp [run_test_backwards, e1, e2, e3, hnul]
  · obtain ⟨sp, a1, a2, _⟩ := line_start_spec mem (re_search offset).toNat (by omega)
    obtain ⟨ep, b1, _⟩ := line_end_spec mem memlen (re_search offset).toNat hnul (by omega)
    refine ⟨sp, ep, a1, b1, ?_, ?_⟩
    · unfold run_test_backwards_body
      have n1 : re_search offset ≠ -1 := by omega
      have n2 : re_search offset ≠ -2 := by omega
      have n3 : ¬ re_search offset < 0 := by omega
      simp only [n1, n2, n3, if_false, a1, b1]
    · by_cases hsp : sp = 0
      · right
        subst hsp
        refine ⟨rfl, ?_, by omega, ?_⟩
        · rw [Nat.zero_add]
          exact Nat.mod_eq_of_lt (by omega)
        · intro fuel c
          have h' : ¬ SIZE_MOD - 1 ≤ memlen := by omega
          simp [run_test_backwards_loop_succ, h']
      · left
        refine ⟨by omega, ?_, by omega⟩
        rw [show sp + SIZE_MOD - 1 = (sp - 1) + SIZE_MOD by omega, Nat.add_mod_right]
        exact Nat.mod_eq_of_lt (by omega)

/-- C5, amended, at the buffer `a b NL a b NL`, the cursor at `memlen = 6` and
the match starts 1 and 4. -/
theorem C5_backward_cursor_witness :
    two_lines[6]? = some NUL ∧ 6 + 1 < SIZE_MOD ∧ 6 ≤ 6 ∧
    0 ≤ re_search_of_starts [1, 4] 6 ∧ re_search_of_starts [1, 4] 6 ≤ ((6 : Nat) : Int) ∧
    ∃ sp ep, (line_start two_lines (re_search_of_starts [1, 4] 6).toNat).1 = some sp ∧
      (line_end two_lines (re_search_of_starts [1, 4] 6).toNat).1 = some ep ∧
      run_test_backwards_body (re_search_of_starts [1, 4]) two_lines 6 0 =
        (if INT_MAX < (0 : Int) + 1 then .stop .int_overflow
         else .next ((sp + SIZE_MOD - 1) % SIZE_MOD) (0 + 1) sp ep) ∧
      ((0 < sp ∧ (sp + SIZE_MOD - 1) % SIZE_MOD = sp - 1 ∧ sp - 1 < 6) ∨
       (sp = 0 ∧ (sp + SIZE_MOD - 1) % SIZE_MOD = SIZE_MOD - 1 ∧
          6 < SIZE_MOD - 1 ∧
          ∀ fuel c, (run_test_backwards_loop (re_search_of_starts [1, 4]) two_lines 6
            (fuel + 1) (SIZE_MOD - 1) c) = pure c)) :=
  ⟨by decide, by decide, by decide, by decide, by decide,
    (C5_backward_cursor (re_search_of_starts [1, 4]) two_lines 6 6 0
      (by decide) (by decide) (by decide) (by decide) (by decide)).2⟩

/-- C10: for a buffer with `mem[memlen] = NUL` and an engine whose reported
match start is at or before the cursor, the line starts of the successive
matches counted by the loop of `run_test_backwards` decrease strictly, so no
line is counted twice; the loop ends within `memlen + 2` passes. -/
theorem C10_backward_line_starts_decrease (re_search : Nat → Int) (mem : List Nat)
    (memlen : Nat) (hnul : mem[memlen]? = some NUL) (hsize : memlen + 1 < SIZE_MOD)
    (hengine : ∀ c, c ≤ memlen → re_search c ≤ c) :
    (∀ fuel,
      (line_starts (run_test_backwards_loop re_search mem memlen fuel memlen 0).out).Pairwise
        (· > ·) ∧
      (line_starts (run_test_backwards_loop re_search mem memlen fuel memlen 0).out).Nodup) ∧
    (∀ fuel, memlen + 1 < fuel →
      (run_test_backwards_loop re_search mem memlen fuel memlen 0).ret ≠ .error .fuel) := by
  constructor
  · intro fuel
    have h := (run_test_backwards_loop_line_starts re_search mem memlen hnul hsize hengine
      fuel memlen 0).2
    exact ⟨h, h.imp (fun hab => Nat.ne_of_gt hab)⟩
  · intro fuel hfuel
    exact run_test_backwards_loop_fuel re_search mem memlen hnul hsize hengine fuel memlen 0
      (le_refl _) hfuel

/-- C10 at the buffer `a b NL a b NL` with the match starts 0, 1 and 4. -/
theorem C10_backward_line_starts_decrease_witness :
    two_lines[6]? = some NUL ∧ 6 + 1 < SIZE_MOD ∧
    (∀ c, c ≤ 6 → re_search_of_starts [0, 1, 4] c ≤ (c : Int)) ∧
    line_starts (run_test_backwards_loop (re_search_of_starts [0, 1, 4]) two_lines 6 8 6 0).out
      = [3, 0] ∧
    (line_starts
      (run_test_backwards_loop (re_search_of_starts [0, 1, 4]) two_lines 6 8 6 0).out).Pairwise
        (· > ·) ∧
    (run_test_backwards_loop (re_search_of_starts [0, 1, 4]) two_lines 6 8 6 0).ret
      ≠ .error .fuel :=
  have hE : ∀ c, c ≤ 6 → re_search_of_starts [0, 1, 4] c ≤ (c : Int) := by decide
  have h := C10_backward_line_starts_decrease (re_search_of_starts [0, 1, 4]) two_lines 6
    (by decide) (by decide) hE
  ⟨by decide, by decide, hE, by decide, (h.1 8).1, h.2 8 (by decide)⟩

/-! ## Forward and backward totals (C6) -/

theorem line_index_mono (mem : List Nat) (a t : Nat) (h : a ≤ t) :
    line_index mem a ≤ line_index mem t := by
  induction t, h using Nat.le_induction with
  | base => exact le_refl _
  | succ n _ ih =>
    simp only [line_index]
    omega

theorem line_index_eq_of_no_newline (mem : List Nat) (a t : Nat) (h : a ≤ t)
    (hno : ∀ i, a ≤ i → i < t → mem[i]? ≠ some NL) :
    line_index mem t = line_index mem a := by
  induction t, h using Nat.le_induction with
  | base => rfl
  | succ n hn ih =>
    have h1 := ih (fun i hi hi2 => hno i hi (by omega))
    have h2 := hno n hn (by omega)
    simp only [line_index, h2, if_false]
    omega

theorem line_index_lt_of_newline (mem : List Nat) (a e t : Nat) (h1 : a ≤ e) (h2 : e < t)
    (hnl : mem[e]? = some NL) : line_index mem a < line_index mem t := by
  have m1 := line_index_mono mem a e h1
  have m2 := line_index_mono mem (e + 1) t (by omega)
  have m3 : line_index mem (e + 1) = line_index mem e + 1 := by
    simp [line_index, hnl]
  omega

/-- The lines of the match starts at or after the cursor: the line of the
least one, and the lines of those beyond the end of that line. -/
theorem forward_lines_split (mem : List Nat) (S : Finset Nat) (offset s ep : Nat)
    (hs : s ∈ S) (hos : offset ≤ s) (hleast : ∀ t ∈ S, offset ≤ t → s ≤ t)
    (hep : s ≤ ep) (hline : ∀ i, s ≤ i → i < ep → mem[i]? ≠ some NL)
    (hnl : ∀ t ∈ S, ep < t → mem[ep]? = some NL) :
    ((S.filter (fun t => offset ≤ t)).image (line_index mem)).card =
      ((S.filter (fun t => ep + 1 ≤ t)).image (line_index mem)).card + 1 := by
  have hsplit : (S.filter (fun t => offset ≤ t)).image (line_index mem) =
      insert (line_index mem s) ((S.filter (fun t => ep + 1 ≤ t)).image (line_index mem)) := by
    ext x
    simp only [Finset.mem_image, Finset.mem_filter, Finset.mem_insert]
    constructor
    · rintro ⟨t, ⟨ht, hot⟩, rfl⟩
      by_cases hte : t ≤ ep
      · left
        exact line_index_eq_of_no_newline mem s t (hleast t ht hot)
          (fun i hi hi2 => hline i hi (by omega))
      · right
        exact ⟨t, ⟨ht, by omega⟩, rfl⟩
    · rintro (rfl | ⟨t, ⟨ht, hot⟩, rfl⟩)
      · exact ⟨s, ⟨hs, hos⟩, rfl⟩
      · exact ⟨t, ⟨ht, by omega⟩, rfl⟩
  have hnot : line_index mem s ∉ (S.filter (fun t => ep + 1 ≤ t)).image (line_index mem) := by
    simp only [Finset.mem_image, Finset.mem_filter, not_exists, not_and, and_imp]
    intro t ht hot heq
    have := line_index_lt_of_newline mem s ep t hep (by omega) (hnl t ht (by omega))
    omega
  rw [hsplit, Finset.card_insert_of_not_mem hnot]

/-- The lines of the match starts at or before the cursor: the line of the
greatest one, and the lines of those before the start of that line. -/
theorem backward_lines_split (mem : List Nat) (S : Finset Nat) (offset s sp : Nat)
    (hs : s ∈ S) (hso : s ≤ offset) (hgreatest : ∀ t ∈ S, t ≤ offset → t ≤ s)
    (hsp : sp ≤ s) (hline : ∀ i, sp ≤ i → i < s → mem[i]? ≠ some NL)
    (hnl : 0 < sp → mem[sp - 1]? = some NL) :
    ((S.filter (fun t => t ≤ offset)).image (line_index mem)).card =
      ((S.filter (fun t => t < sp)).image (line_index mem)).card + 1 := by
  have hsplit : (S.filter (fun t => t ≤ offset)).image (line_index mem) =
      insert (line_index mem s) ((S.filter (fun t => t < sp)).image (line_index mem)) := by
    ext x
    simp only [Finset.mem_image, Finset.mem_filter, Finset.mem_insert]
    constructor
    · rintro ⟨t, ⟨ht, hot⟩, rfl⟩
      by_cases hte : sp ≤ t
      · left
        exact (line_index_eq_of_no_newline mem t s (hgreatest t ht hot)
          (fun i hi hi2 => hline i (by omega) hi2)).symm
      · right
        exact ⟨t, ⟨ht, by omega⟩, rfl⟩
    · rintro (rfl | ⟨t, ⟨ht, hot⟩, rfl⟩)
      · exact ⟨s, ⟨hs, hso⟩, rfl⟩
      · exact ⟨t, ⟨ht, by omega⟩, rfl⟩
  have hnot : line_index mem s ∉ (S.filter (fun t => t < sp)).image (line_index mem) := by
    simp only [Finset.mem_image, Finset.mem_filter, not_exists, not_and, and_imp]
    intro t ht hot heq
    have := line_index_lt_of_newline mem t (sp - 1) s (by omega) (by omega) (hnl (by omega))
    omega
  rw [hsplit, Finset.card_insert_of_not_mem hnot]

/-- The count of the forward loop with a search that reports the least match
start at or after the cursor: the count so far plus the number of lines that
hold a match start at or after the cursor. -/
theorem run_test_loop_count (regexec : Nat → RegexecResult) (mem : List Nat) (memlen : Nat)
    (S : Finset Nat) (hnul : mem[memlen]? = some NUL) (hsize : memlen + 1 < SIZE_MOD)
    (hno : ∀ i, i < memlen → mem[i]? ≠ some NUL) (hS : ∀ s ∈ S, s ≤ memlen)
    (hf1 : ∀ c rm_so, c < memlen → regexec c = .REG_NOERROR rm_so →
      0 ≤ rm_so ∧ c + rm_so.toNat ∈ S ∧ ∀ t ∈ S, c ≤ t → c + rm_so.toNat ≤ t)
    (hf2 : ∀ c, c < memlen → regexec c = .REG_NOMATCH → ∀ t ∈ S, t < c)
    (hf3 : ∀ c err, c < memlen → regexec c ≠ .failure err)
    (hend : memlen ∈ S → 0 < memlen ∧ mem[memlen - 1]? ≠ some NL) :
    ∀ fuel offset (cnt : Int),
      (offset = 0 ∨ offset = memlen + 1 ∨ (0 < offset ∧ mem[offset - 1]? = some NL)) →
      offset ≤ memlen + 1 → cnt ≤ INT_MAX → memlen - offset < fuel →
      (run_test_loop regexec mem memlen fuel offset cnt).ret =
        if cnt + (((S.filter (fun t => offset ≤ t)).image (line_index mem)).card : Int)
            ≤ INT_MAX
        then .ok (cnt + (((S.filter (fun t => offset ≤ t)).image (line_index mem)).card : Int))
        else .error (.fatal .int_overflow) := by
  intro fuel
  induction fuel with
  | zero =>
    intro offset cnt _ _ _ h
    omega
  | succ fuel ih =>
    intro offset cnt hstart hbound hcnt hfuel
    rw [run_test_loop_succ]
    by_cases hlt : offset < memlen
    · simp only [hlt, if_true]
      cases hr : regexec offset with
      | REG_NOMATCH =>
        have hb : run_test_body regexec mem offset cnt = .brk := by
          simp [run_test_body, hr]
        have hempty : S.filter (fun t => offset ≤ t) = ∅ := by
          apply Finset.filter_eq_empty_iff.2
          intro t ht
          have := hf2 offset hlt hr t ht
          omega
        simp [hb, hempty, pure_def, hcnt]
      | failure err => exact absurd hr (hf3 offset err hlt)
      | REG_NOERROR rm_so =>
        obtain ⟨h0, hsS, hleast⟩ := hf1 offset rm_so hlt hr
        have hM := hS _ hsS
        obtain ⟨sp, ep, hs, he, hb⟩ :=
          run_test_body_of_match regexec mem memlen offset cnt rm_so hnul hr h0 hM
        obtain ⟨le, b1, b2, b3, b4, b5, _⟩ :=
          line_end_spec mem memlen (offset + rm_so.toNat) hnul hM
        rw [he] at b1
        simp only [Option.some.injEq] at b1
        subst b1
        have hnl : ∀ t ∈ S, ep < t → mem[ep]? = some NL := by
          intro t ht hlt'
          have := hS t ht
          rcases b4 with h | h
          · exact absurd h (hno ep (by omega))
          · exact h
        have hcard := forward_lines_split mem S offset (offset + rm_so.toNat) ep hsS
          (by omega) hleast b2 (fun i hi hi2 => (b5 i hi hi2).2) hnl
        rw [hcard, hb]
        by_cases hov : INT_MAX < cnt + 1
        · have hneg : ¬ (cnt + ((((S.filter (fun t => ep + 1 ≤ t)).image
              (line_index mem)).card + 1 : Nat) : Int) ≤ INT_MAX) := by
            push_cast
            omega
          simp only [hov, if_true, hneg, if_false]
          rfl
        · simp only [hov, if_false, printf_seq_ret]
          have hmod : (ep + 1) % SIZE_MOD = ep + 1 := Nat.mod_eq_of_lt (by omega)
          rw [hmod]
          have hnext : ep + 1 = 0 ∨ ep + 1 = memlen + 1 ∨
              (0 < ep + 1 ∧ mem[ep + 1 - 1]? = some NL) := by
            rcases b4 with h | h
            · right; left
              by_contra hcon
              exact hno ep (by omega) h
            · right; right
              exact ⟨by omega, by simpa using h⟩
          rw [ih (ep + 1) (cnt + 1) hnext (by omega) (by omega) (by omega)]
          push_cast
          have e1 : cnt + 1 + (((S.filter (fun t => ep + 1 ≤ t)).image
              (line_index mem)).card : Int) =
              cnt + ((((S.filter (fun t => ep + 1 ≤ t)).image
              (line_index mem)).card : Int) + 1) := by ring
          rw [e1]
    · have hempty : S.filter (fun t => offset ≤ t) = ∅ := by
        apply Finset.filter_eq_empty_iff.2
        intro t ht
        have htle := hS t ht
        intro hot
        have hmem : offset = memlen := by
          rcases hstart with h | h | h
          · omega
          · omega
          · omega
        have htm : t = memlen := by omega
        subst htm
        obtain ⟨e1, e2⟩ := hend ht
        rcases hstart with h | h | ⟨_, h⟩
        · omega
        · omega
        · rw [hmem] at h
          exact e2 h
      simp [hlt, hempty, pure_def, hcnt]

/-- The pass of the backward loop at a match start inside the buffer. -/
theorem run_test_backwards_body_of_match (re_search : Nat → Int) (mem : List Nat)
    (memlen offset : Nat) (cnt : Int) (s : Nat)
    (hnul : mem[memlen]? = some NUL)
    (hr : re_search offset = (s : Int)) (hM : s ≤ memlen) :
    ∃ sp ep, (line_start mem s).1 = some sp ∧ (line_end mem s).1 = some ep ∧
      run_test_backwards_body re_search mem offset cnt =
        if INT_MAX < cnt + 1 then .stop .int_overflow
        else .next ((sp + SIZE_MOD - 1) % SIZE_MOD) (cnt + 1) sp ep := by
  have hlen := lt_length_of_getElem?_eq_some hnul
  obtain ⟨ls, a1, _⟩ := line_start_spec mem s (by omega)
  obtain ⟨le, a2, _⟩ := line_end_spec mem memlen s hnul hM
  refine ⟨ls, le, a1, a2, ?_⟩
  unfold run_test_backwards_body
  have n1 : re_search offset ≠ -1 := by omega
  have n2 : re_search offset ≠ -2 := by omega
  have n3 : ¬ re_search offset < 0 := by omega
  have n4 : (re_search offset).toNat = s := by omega
  simp only [n1, n2, n3, if_false, n4, a1, a2]

/-- The count of the backward loop with a search that reports the greatest
match start at or before the cursor: the count so far plus the number of lines
that hold a match start at or before the cursor. -/
theorem run_test_backwards_loop_count (re_search : Nat → Int) (mem : List Nat)
    (memlen : Nat) (S : Finset Nat) (hnul : mem[memlen]? = some NUL)
    (hsize : memlen + 1 < SIZE_MOD)
    (hb : ∀ c, c ≤ memlen →
      (re_search c = -1 ∧ ∀ t ∈ S, c < t) ∨
      (∃ s : Nat, re_search c = (s : Int) ∧ s ≤ c ∧ s ∈ S ∧ ∀ t ∈ S, t ≤ c → t ≤ s)) :
    ∀ fuel offset (cnt : Int),
      offset ≤ memlen → cnt ≤ INT_MAX → offset + 1 < fuel →
      (run_test_backwards_loop re_search mem memlen fuel offset cnt).ret =
        if cnt + (((S.filter (fun t => t ≤ offset)).image (line_index mem)).card : Int)
            ≤ INT_MAX
        then .ok (cnt + (((S.filter (fun t => t ≤ offset)).image (line_index mem)).card : Int))
        else .error (.fatal .int_overflow) := by
  have hlen := lt_length_of_getElem?_eq_some hnul
  intro fuel
  induction fuel with
  | zero =>
    intro offset cnt _ _ h
    omega
  | succ fuel ih =>
    intro offset cnt hle hcnt hfuel
    rw [run_test_backwards_loop_succ]
    simp only [hle, if_true]
    rcases hb offset hle with ⟨hr, hnone⟩ | ⟨s, hr, hso, hsS, hgreatest⟩
    · have hbody : run_test_backwards_body re_search mem offset cnt = .brk := by
        simp [run_test_backwards_body, hr]
      have hempty : S.filter (fun t => t ≤ offset) = ∅ := by
        apply Finset.filter_eq_empty_iff.2
        intro t ht
        have := hnone t ht
        omega
      simp [hbody, hempty, pure_def, hcnt]
    · obtain ⟨sp, ep, hs, he, hbody⟩ :=
        run_test_backwards_body_of_match re_search mem memlen offset cnt s hnul hr
          (by omega)
      obtain ⟨ls, a1, a2, a3, a4, _⟩ := line_start_spec mem s (by omega)
      rw [hs] at a1
      simp only [Option.some.injEq] at a1
      subst a1
      have hnl : 0 < sp → mem[sp - 1]? = some NL := by
        intro hpos
        rcases a3 with h | ⟨_, h⟩
        · omega
        · exact h
      have hcard := backward_lines_split mem S offset s sp hsS hso hgreatest a2 a4 hnl
      rw [hcard, hbody]
      by_cases hov : INT_MAX < cnt + 1
      · have hneg : ¬ (cnt + ((((S.filter (fun t => t < sp)).image
            (line_index mem)).card + 1 : Nat) : Int) ≤ INT_MAX) := by
          push_cast
          omega
        simp only [hov, if_true, hneg, if_false]
        rfl
      · simp only [hov, if_false, printf_seq_ret]
        by_cases hsp : sp = 0
        · subst hsp
          have hwrap : (0 + SIZE_MOD - 1) % SIZE_MOD = SIZE_MOD - 1 := by
            rw [Nat.zero_add]
            exact Nat.mod_eq_of_lt (by omega)
          rw [hwrap, (run_test_backwards_loop_past re_search mem memlen fuel (SIZE_MOD - 1)
            (cnt + 1) (by omega)).2 (by omega)]
          have hempty : S.filter (fun t => t < 0) = ∅ := by
            apply Finset.filter_eq_empty_iff.2
            intro t _
            omega
          have hle1 : cnt + 1 ≤ INT_MAX := by omega
          simp [hempty, hle1]
        · have hstep : (sp + SIZE_MOD - 1) % SIZE_MOD = sp - 1 := by
            rw [show sp + SIZE_MOD - 1 = (sp - 1) + SIZE_MOD by omega,
              Nat.add_mod_right]
            exact Nat.mod_eq_of_lt (by omega)
          rw [hstep, ih (sp - 1) (cnt + 1) (by omega) (by omega) (by omega)]
          have hfilter : S.filter (fun t => t ≤ sp - 1) = S.filter (fun t => t < sp) := by
            apply Finset.filter_congr
            intro t _
            omega
          rw [hfilter]
          push_cast
          have e1 : cnt + 1 + (((S.filter (fun t => t < sp)).image
              (line_index mem)).card : Int) =
              cnt + ((((S.filter (fun t => t < sp)).image
              (line_index mem)).card : Int) + 1) := by ring
          rw [e1]

/-- C6, as stated, fails: in the buffer `a NL` (terminator at index 2, no
embedded NUL) with the match starts 0 and 2, the forward search reports the
least match start at or after its cursor and the backward search the greatest
at or before its cursor; the match starts lie on two distinct lines, the
backward loop counts 2, and the forward loop counts 1, because its guard
`offset < memlen` ends it before the empty last line at index `memlen`. -/
theorem C6_forward_misses_line_at_memlen :
    ([97, 10, 0] : List Nat)[2]? = some NUL ∧
    (∀ i, i < 2 → ([97, 10, 0] : List Nat)[i]? ≠ some NUL) ∧
    (∀ s ∈ ([0, 2] : List Nat).toFinset, s ≤ 2) ∧
    (∀ c, c ≤ 2 →
      (∀ rm_so, regexec_of_starts [0, 2] 2 c = .REG_NOERROR rm_so →
        0 ≤ rm_so ∧ c + rm_so.toNat ∈ ([0, 2] : List Nat).toFinset ∧
        ∀ t ∈ ([0, 2] : List Nat).toFinset, c ≤ t → c + rm_so.toNat ≤ t) ∧
      (regexec_of_starts [0, 2] 2 c = .REG_NOMATCH →
        ∀ t ∈ ([0, 2] : List Nat).toFinset, t < c)) ∧
    (∀ c, c ≤ 2 →
      (re_search_of_starts [0, 2] c = -1 ∧ ∀ t ∈ ([0, 2] : List Nat).toFinset, c < t) ∨
      (∃ s : Nat, re_search_of_starts [0, 2] c = (s : Int) ∧ s ≤ c ∧
        s ∈ ([0, 2] : List Nat).toFinset ∧
        ∀ t ∈ ([0, 2] : List Nat).toFinset, t ≤ c → t ≤ s)) ∧
    spec_line_count [97, 10, 0] ([0, 2] : List Nat).toFinset = 2 ∧
    (run_test_backwards_loop (re_search_of_starts [0, 2]) [97, 10, 0] 2 4 2 0).ret = .ok 2 ∧
    (run_test_loop (regexec_of_starts [0, 2] 2) [97, 10, 0] 2 4 0 0).ret = .ok 1 := by
  refine ⟨by decide, by decide, by decide, ?_, ?_, by decide, rfl, rfl⟩
  · intro c hc
    obtain ⟨h1, h2, _⟩ := regexec_of_starts_spec [0, 2] 2 c hc
    constructor
    · intro rm_so h
      obtain ⟨a1, a2, a3, a4⟩ := h1 rm_so h
      exact ⟨a1, List.mem_toFinset.2 a3, fun t ht hct => a4 t (List.mem_toFinset.1 ht) hct⟩
    · intro h t ht
      have hmem := List.mem_toFinset.1 ht
      have hle : t ≤ 2 := by
        revert hmem
        simp
        omega
      by_contra hcon
      have := h2 h t hmem (by omega)
      omega
  · intro c _
    rcases re_search_of_starts_spec [0, 2] c with ⟨h1, h2⟩ | ⟨s, h1, h2, h3, h4⟩
    · exact Or.inl ⟨h1, fun t ht => h2 t (List.mem_toFinset.1 ht)⟩
    · exact Or.inr ⟨s, h1, h2, List.mem_toFinset.2 h3,
        fun t ht htc => h4 t (List.mem_toFinset.1 ht) htc⟩

/-- C6, amended: for a buffer with `mem[memlen] = NUL` and no NUL before
`memlen`, a set `S` of match starts in `[0, memlen]`, a forward search that
reports the least element of `S` at or after its cursor and a backward search
that reports the greatest element of `S` at or before its cursor, if `S` holds
`memlen` only when index `memlen` does not begin a line (`memlen > 0` and
`mem[memlen - 1]` is not a newline), then the loops of `run_test` and
`run_test_backwards` end with the same result: the number of distinct lines
that hold an element of `S`, or the overflow stop of the `int` counter when
that number exceeds `INT_MAX`. -/
theorem C6_forward_backward_agree (regexec : Nat → RegexecResult) (re_search : Nat → Int)
    (mem : List Nat) (memlen : Nat) (S : Finset Nat) (fuel : Nat)
    (hnul : mem[memlen]? = some NUL) (hsize : memlen + 1 < SIZE_MOD)
    (hno : ∀ i, i < memlen → mem[i]? ≠ some NUL) (hS : ∀ s ∈ S, s ≤ memlen)
    (hf1 : ∀ c rm_so, c < memlen → regexec c = .REG_NOERROR rm_so →
      0 ≤ rm_so ∧ c + rm_so.toNat ∈ S ∧ ∀ t ∈ S, c ≤ t → c + rm_so.toNat ≤ t)
    (hf2 : ∀ c, c < memlen → regexec c = .REG_NOMATCH → ∀ t ∈ S, t < c)
    (hf3 : ∀ c err, c < memlen → regexec c ≠ .failure err)
    (hb : ∀ c, c ≤ memlen →
      (re_search c = -1 ∧ ∀ t ∈ S, c < t) ∨
      (∃ s : Nat, re_search c = (s : Int) ∧ s ≤ c ∧ s ∈ S ∧ ∀ t ∈ S, t ≤ c → t ≤ s))
    (hend : memlen ∈ S → 0 < memlen ∧ mem[memlen - 1]? ≠ some NL)
    (hfuel : memlen + 1 < fuel) :
    (run_test_loop regexec mem memlen fuel 0 0).ret =
      (if (spec_line_count mem S : Int) ≤ INT_MAX then .ok (spec_line_count mem S : Int)
       else .error (.fatal .int_overflow)) ∧
    (run_test_backwards_loop re_search mem memlen fuel memlen 0).ret =
      (if (spec_line_count mem S : Int) ≤ INT_MAX then .ok (spec_line_count mem S : Int)
       else .error (.fatal .int_overflow)) := by
  have hfwd := run_test_loop_count regexec mem memlen S hnul hsize hno hS hf1 hf2 hf3 hend
    fuel 0 0 (Or.inl rfl) (by omega) (by decide) (by omega)
  have hbwd := run_test_backwards_loop_count re_search mem memlen S hnul hsize hb
    fuel memlen 0 (le_refl _) (by decide) hfuel
  have e1 : S.filter (fun t => 0 ≤ t) = S := by
    apply Finset.filter_true_of_mem
    intro t _
    omega
  have e2 : S.filter (fun t => t ≤ memlen) = S := Finset.filter_true_of_mem hS
  rw [e1] at hfwd
  rw [e2] at hbwd
  simp only [zero_add] at hfwd hbwd
  exact ⟨hfwd, hbwd⟩

/-- The searches built from a list of match starts inside the buffer are the
searches C6 speaks of. -/
theorem searches_of_starts_ideal (S : List Nat) (memlen : Nat) (hS : ∀ s ∈ S, s ≤ memlen) :
    (∀ c rm_so, c < memlen → regexec_of_starts S memlen c = .REG_NOERROR rm_so →
      0 ≤ rm_so ∧ c + rm_so.toNat ∈ S.toFinset ∧
      ∀ t ∈ S.toFinset, c ≤ t → c + rm_so.toNat ≤ t) ∧
    (∀ c, c < memlen → regexec_of_starts S memlen c = .REG_NOMATCH →
      ∀ t ∈ S.toFinset, t < c) ∧
    (∀ c err, c < memlen → regexec_of_starts S memlen c ≠ .failure err) ∧
    (∀ c, c ≤ memlen →
      (re_search_of_starts S c = -1 ∧ ∀ t ∈ S.toFinset, c < t) ∨
      (∃ s : Nat, re_search_of_starts S c = (s : Int) ∧ s ≤ c ∧ s ∈ S.toFinset ∧
        ∀ t ∈ S.toFinset, t ≤ c → t ≤ s)) := by
  refine ⟨?_, ?_, ?_, ?_⟩
  · intro c rm_so hc h
    obtain ⟨a1, _, a3, a4⟩ := (regexec_of_starts_spec S memlen c (by omega)).1 rm_so h
    exact ⟨a1, List.mem_toFinset.2 a3, fun t ht hct => a4 t (List.mem_toFinset.1 ht) hct⟩
  · intro c hc h t ht
    have hmem := List.mem_toFinset.1 ht
    have hle := hS t hmem
    by_contra hcon
    have := (regexec_of_starts_spec S memlen c (by omega)).2.1 h t hmem (by omega)
    omega
  · intro c err hc
    exact (regexec_of_starts_spec S memlen c (by omega)).2.2 err
  · intro c _
    rcases re_search_of_starts_spec S c with ⟨h1, h2⟩ | ⟨s, h1, h2, h3, h4⟩
    · exact Or.inl ⟨h1, fun t ht => h2 t (List.mem_toFinset.1 ht)⟩
    · exact Or.inr ⟨s, h1, h2, List.mem_toFinset.2 h3,
        fun t ht htc => h4 t (List.mem_toFinset.1 ht) htc⟩

/-- C6, amended, at the buffer `a b NL a b` (terminator at index 5) with the
match starts 1 and 5: index 5 ends the last line, both loops count 2. -/
theorem C6_forward_backward_agree_witness :
    open_last_line[5]? = some NUL ∧ 5 + 1 < SIZE_MOD ∧
    (∀ i, i < 5 → open_last_line[i]? ≠ some NUL) ∧
    (∀ s ∈ ([1, 5] : List Nat).toFinset, s ≤ 5) ∧
    (5 ∈ ([1, 5] : List Nat).toFinset → 0 < 5 ∧ open_last_line[5 - 1]? ≠ some NL) ∧
    spec_line_count open_last_line ([1, 5] : List Nat).toFinset = 2 ∧
    (run_test_loop (regexec_of_starts [1, 5] 5) open_last_line 5 7 0 0).ret =
      (if (spec_line_count open_last_line ([1, 5] : List Nat).toFinset : Int) ≤ INT_MAX
       then .ok (spec_line_count open_last_line ([1, 5] : List Nat).toFinset : Int)
       else .error (.fatal .int_overflow)) ∧
    (run_test_backwards_loop (re_search_of_starts [1, 5]) open_last_line 5 7 5 0).ret =
      (if (spec_line_count open_last_line ([1, 5] : List Nat).toFinset : Int) ≤ INT_MAX
       then .ok (spec_line_count open_last_line ([1, 5] : List Nat).toFinset : Int)
       else .error (.fatal .int_overflow)) :=
  have hS : ∀ s ∈ ([1, 5] : List Nat), s ≤ 5 := by decide
  have hI := searches_of_starts_ideal [1, 5] 5 hS
  ⟨by decide, by decide, by decide, by decide, by decide, by decide,
    C6_forward_backward_agree (regexec_of_starts [1, 5] 5) (re_search_of_starts [1, 5])
      open_last_line 5 ([1, 5] : List Nat).toFinset 7 (by decide) (by decide) (by decide)
      (by decide) hI.1 hI.2.1 hI.2.2.1 hI.2.2.2 (by decide) (by decide)⟩

/-! ## The corpus loader (C8, C9) -/

theorem utf8_of_latin1_length (b : Nat) :
    (utf8_of_latin1 b).length = if b < 128 then 1 else 2 := by
  unfold utf8_of_latin1
  split_ifs <;> rfl

theorem utf8_length_bounds (file : List Nat) :
    file.length ≤ utf8_length file ∧ utf8_length file ≤ 2 * file.length ∧
    (utf8_length file = 2 * file.length ↔ ∀ b ∈ file, 128 ≤ b) := by
  induction file with
  | nil => simp [utf8_length]
  | cons b rest ih =>
    obtain ⟨h1, h2, h3⟩ := ih
    simp only [utf8_length, utf8_of_latin1_length, List.length_cons, List.forall_mem_cons]
    by_cases hb : b < 128
    · simp only [hb, if_true]
      refine ⟨by omega, by omega, ?_⟩
      constructor
      · intro h
        omega
      · rintro ⟨h, _⟩
        omega
    · simp only [hb, if_false]
      refine ⟨by omega, by omega, ?_⟩
      constructor
      · intro h
        exact ⟨by omega, h3.1 (by omega)⟩
      · rintro ⟨_, h⟩
        have := h3.2 h
        omega

/-- The conversion consumes its whole input exactly when the UTF-8 text fits
in the space offered, and never writes more than that space. -/
theorem iconv_latin1_utf8_spec :
    ∀ (input : List Nat) (space : Nat),
      ((iconv_latin1_utf8 input space).2 = 0 ↔ utf8_length input ≤ space) ∧
      (iconv_latin1_utf8 input space).1.length ≤ space ∧
      (iconv_latin1_utf8 input space).1.length ≤ utf8_length input ∧
      ((iconv_latin1_utf8 input space).2 = 0 →
        (iconv_latin1_utf8 input space).1.length = utf8_length input) := by
  intro input
  induction input with
  | nil =>
    intro space
    simp [iconv_latin1_utf8, utf8_length]
  | cons b rest ih =>
    intro space
    by_cases hfit : (utf8_of_latin1 b).length ≤ space
    · obtain ⟨a1, a2, a3, a4⟩ := ih (space - (utf8_of_latin1 b).length)
      simp only [iconv_latin1_utf8, hfit, if_true, utf8_length, List.length_append]
      refine ⟨?_, by omega, by omega, ?_⟩
      · rw [a1]
        omega
      · intro h
        have := a4 h
        omega
    · simp only [iconv_latin1_utf8, hfit, if_false, utf8_length, List.length_nil]
      refine ⟨?_, by omega, by omega, ?_⟩
      · constructor
        · intro h
          omega
        · intro h
          omega
      · intro h
        omega

theorem SIZE_MOD_eq : SIZE_MOD = 18446744073709551616 := by decide

/-- The space offered to the conversion: `2 * memlen - 1`, and `SIZE_MOD - 1`
for an empty corpus. -/
theorem outlen_eq (memlen : Nat) (hsize : 2 * memlen < SIZE_MOD) :
    outlen memlen = if memlen = 0 then SIZE_MOD - 1 else 2 * memlen - 1 := by
  unfold outlen
  rw [Nat.mod_eq_of_lt hsize]
  have h := SIZE_MOD_eq
  split_ifs with h0
  · subst h0
    simp only [Nat.mul_zero, Nat.zero_add]
    exact Nat.mod_eq_of_lt (by omega)
  · rw [show 2 * memlen + SIZE_MOD - 1 = (2 * memlen - 1) + SIZE_MOD by omega,
      Nat.add_mod_right]
    exact Nat.mod_eq_of_lt (by omega)

/-- The loader on a corpus file whose system calls and allocations succeed. -/
theorem main_load_env_of_file (file : List Nat) (hsize : 2 * file.length < SIZE_MOD) :
    main_load (env_of_file file) =
      if (iconv_latin1_utf8 file (outlen file.length)).2 ≠ 0 then fatal .cannot_convert
      else pure
        { mem := file ++ [NUL]
          memlen := file.length
          umem := (iconv_latin1_utf8 file (outlen file.length)).1 ++
            List.replicate
              (2 * file.length - (iconv_latin1_utf8 file (outlen file.length)).1.length) NUL
          umemlen := (iconv_latin1_utf8 file (outlen file.length)).1.length } := by
  have h := SIZE_MOD_eq
  have hmod : file.length % SIZE_MOD = file.length := Nat.mod_eq_of_lt (by omega)
  have hmod1 : (file.length + 1) % SIZE_MOD = file.length + 1 :=
    Nat.mod_eq_of_lt (by omega)
  have hconv : ¬ 2 * file.length <
      (iconv_latin1_utf8 file (outlen file.length)).1.length := by
    have h1 := (iconv_latin1_utf8_spec file (outlen file.length)).2.1
    have h2 := (iconv_latin1_utf8_spec file (outlen file.length)).2.2.1
    have h3 := (utf8_length_bounds file).2.1
    omega
  have hnot : ¬ SIZE_MOD ≤ 2 * file.length := by omega
  unfold main_load
  simp only [env_of_file, hmod, hmod1, List.take_length, hconv, hnot, Bool.not_true,
    Bool.false_eq_true, if_false, ne_eq, not_true_eq_false, Nat.lt_irrefl,
    Nat.add_one_le_iff]

theorem utf8_length_le_outlen_iff (file : List Nat) (hsize : 2 * file.length < SIZE_MOD) :
    utf8_length file ≤ outlen file.length ↔ (file = [] ∨ ∃ b ∈ file, b < 128) := by
  have h := SIZE_MOD_eq
  obtain ⟨b1, b2, b3⟩ := utf8_length_bounds file
  rw [outlen_eq file.length hsize]
  by_cases hnil : file = []
  · subst hnil
    simp [utf8_length]
  · have hpos : file.length ≠ 0 := by
      intro hl
      exact hnil (List.length_eq_zero.1 hl)
    simp only [hpos, if_false, hnil, false_or]
    constructor
    · intro hle
      by_contra hcon
      push_neg at hcon
      have := b3.2 hcon
      omega
    · rintro ⟨b, hb, hlt⟩
      by_contra hcon
      have heq : utf8_length file = 2 * file.length := by omega
      have := b3.1 heq b hb
      omega

/-- C8, as stated, fails: for the one-byte corpus `0xE5` the space offered is
`outlen = 2 * 1 - 1 = 1`, the UTF-8 text needs 2 bytes, the conversion leaves
the input byte unconsumed (`inlen = 1`), and the loader stops with
"cannot convert buffer". -/
theorem C8_high_byte_corpus_does_not_fit :
    outlen 1 = 1 ∧ utf8_length [229] = 2 ∧ ¬ (utf8_length [229] ≤ outlen 1) ∧
    iconv_latin1_utf8 [229] (outlen 1) = ([], 1) ∧
    (main_load (env_of_file [229])).ret = .error (.fatal .cannot_convert) := by
  refine ⟨by decide, by decide, by decide, by decide, rfl⟩

/-- C8, amended: for a corpus of `memlen` bytes whose allocation of
`2 * memlen` bytes succeeds, the UTF-8 text is at most `2 * memlen` bytes, and
it fits in the space offered, `outlen = 2 * memlen - 1` in `size_t` arithmetic,
exactly when the corpus is empty or holds a byte below `0x80`; exactly then the
conversion consumes the entire input and the loader returns, and otherwise the
loader stops with "cannot convert buffer". -/
theorem C8_conversion_capacity (file : List Nat) (hsize : 2 * file.length < SIZE_MOD) :
    utf8_length file ≤ 2 * file.length ∧
    (utf8_length file ≤ outlen file.length ↔ (file = [] ∨ ∃ b ∈ file, b < 128)) ∧
    ((iconv_latin1_utf8 file (outlen file.length)).2 = 0 ↔
      (file = [] ∨ ∃ b ∈ file, b < 128)) ∧
    ((∃ G, (main_load (env_of_file file)).ret = .ok G) ↔
      (file = [] ∨ ∃ b ∈ file, b < 128)) ∧
    ((main_load (env_of_file file)).ret = .error (.fatal .cannot_convert) ↔
      ¬ (file = [] ∨ ∃ b ∈ file, b < 128)) := by
  have hfit := utf8_length_le_outlen_iff file hsize
  have hconv := (iconv_latin1_utf8_spec file (outlen file.length)).1
  refine ⟨(utf8_length_bounds file).2.1, hfit, hconv.trans hfit, ?_, ?_⟩
  · rw [main_load_env_of_file file hsize, ← hfit, ← hconv]
    by_cases h0 : (iconv_latin1_utf8 file (outlen file.length)).2 = 0
    · simp [h0, pure_def]
    · simp [h0, fatal]
  · rw [main_load_env_of_file file hsize, ← hfit, ← hconv]
    by_cases h0 : (iconv_latin1_utf8 file (outlen file.length)).2 = 0
    · simp [h0, pure_def]
    · simp [h0, fatal]

/-- C8, amended, at the two-byte corpus `0xE5 A`. -/
theorem C8_conversion_capacity_witness :
    2 * ([229, 65] : List Nat).length < SIZE_MOD ∧
    utf8_length [229, 65] ≤ 2 * ([229, 65] : List Nat).length ∧
    (utf8_length [229, 65] ≤ outlen ([229, 65] : List Nat).length ↔
      (([229, 65] : List Nat) = [] ∨ ∃ b ∈ ([229, 65] : List Nat), b < 128)) ∧
    ((iconv_latin1_utf8 [229, 65] (outlen ([229, 65] : List Nat).length)).2 = 0 ↔
      (([229, 65] : List Nat) = [] ∨ ∃ b ∈ ([229, 65] : List Nat), b < 128)) ∧
    ((∃ G, (main_load (env_of_file [229, 65])).ret = .ok G) ↔
      (([229, 65] : List Nat) = [] ∨ ∃ b ∈ ([229, 65] : List Nat), b < 128)) ∧
    ((main_load (env_of_file [229, 65])).ret = .error (.fatal .cannot_convert) ↔
      ¬ (([229, 65] : List Nat) = [] ∨ ∃ b ∈ ([229, 65] : List Nat), b < 128)) :=
  ⟨by decide, C8_conversion_capacity [229, 65] (by decide)⟩

/-- What the loader leaves in the globals when it returns: `mem` is the corpus
followed by a NUL in `memlen + 1` bytes, `umem` has `2 * memlen` bytes, and
every byte of `umem` from `umemlen` on is NUL. When the conversion wrote at
most `outlen` bytes and the corpus is not empty, `umemlen < 2 * memlen`. -/
theorem main_load_globals (env : Env) (G : Globals) (h : (main_load env).ret = .ok G) :
    G.memlen = env.st_size % SIZE_MOD ∧ G.mem.length = G.memlen + 1 ∧
    G.mem[G.memlen]? = some NUL ∧ G.umem.length = 2 * G.memlen ∧
    G.umemlen ≤ 2 * G.memlen ∧
    (G.umemlen < 2 * G.memlen → G.umem[G.umemlen]? = some NUL) ∧
    ((env.iconv (env.file.take G.memlen) (outlen G.memlen)).1.length ≤ outlen G.memlen →
      0 < G.memlen → G.umemlen < 2 * G.memlen) := by
  have hf : ∀ f : Fatal, (fatal f : Prog Globals).ret ≠ .ok G := by
    intro f hcon
    simp [fatal] at hcon
  unfold main_load at h
  by_cases h1 : (!env.argv1) = true
  · rw [if_pos h1] at h
    exact absurd h (hf _)
  rw [if_neg h1] at h
  by_cases h2 : (!env.open_ok) = true
  · rw [if_pos h2] at h
    exact absurd h (hf _)
  rw [if_neg h2] at h
  by_cases h3 : (!env.fstat_ok) = true
  · rw [if_pos h3] at h
    exact absurd h (hf _)
  rw [if_neg h3] at h
  by_cases h4 : (!env.malloc_ok ((env.st_size % SIZE_MOD + 1) % SIZE_MOD)) = true
  · rw [if_pos h4] at h
    exact absurd h (hf _)
  rw [if_neg h4] at h
  by_cases h5 : (env.file.take (env.st_size % SIZE_MOD)).length ≠ env.st_size % SIZE_MOD
  · rw [if_pos h5] at h
    exact absurd h (hf _)
  rw [if_neg h5] at h
  by_cases h6 : (env.st_size % SIZE_MOD + 1) % SIZE_MOD ≤ env.st_size % SIZE_MOD
  · rw [if_pos h6] at h
    exact absurd h (hf _)
  rw [if_neg h6] at h
  by_cases h7 : (!env.iconv_open_ok) = true
  · rw [if_pos h7] at h
    exact absurd h (hf _)
  rw [if_neg h7] at h
  by_cases h8 : SIZE_MOD ≤ 2 * (env.st_size % SIZE_MOD)
  · rw [if_pos h8] at h
    exact absurd h (hf _)
  rw [if_neg h8] at h
  by_cases h9 : (!env.calloc_ok (2 * (env.st_size % SIZE_MOD))) = true
  · rw [if_pos h9] at h
    exact absurd h (hf _)
  rw [if_neg h9] at h
  by_cases h10 : 2 * (env.st_size % SIZE_MOD) <
      (env.iconv (env.file.take (env.st_size % SIZE_MOD))
        (outlen (env.st_size % SIZE_MOD))).1.length
  · rw [if_pos h10] at h
    exact absurd h (hf _)
  rw [if_neg h10] at h
  by_cases h11 : (env.iconv (env.file.take (env.st_size % SIZE_MOD))
        (outlen (env.st_size % SIZE_MOD))).2 ≠ 0
  · rw [if_pos h11] at h
    exact absurd h (hf _)
  rw [if_neg h11] at h
  simp only [pure_def, Except.ok.injEq] at h
  subst h
  have hs := SIZE_MOD_eq
  push_neg at h5 h10
  generalize env.st_size % SIZE_MOD = m at *
  simp only [List.length_append, List.length_singleton, List.length_replicate]
  refine ⟨trivial, by omega, ?_, by omega, h10, ?_, ?_⟩
  · rw [List.getElem?_append_right (by omega), h5]
    simp
  · intro hlt
    rw [List.getElem?_append_right (le_refl _), Nat.sub_self]
    exact List.getElem?_replicate_of_lt (by omega)
  · intro hle hpos
    have e := outlen_eq m (by omega)
    have hne : m ≠ 0 := by omega
    simp only [hne, if_false] at e
    omega

/-- C9 at the empty corpus: the loader returns with `memlen = 0`; `mem` is
terminated, but `umem` is an allocation of `2 * 0 = 0` bytes and `umemlen = 0`,
so `umemlen < 2 * memlen` fails and `umem[umemlen]` lies outside the
allocation. -/
theorem C9_empty_corpus_umem_unterminated :
    outlen 0 = SIZE_MOD - 1 ∧
    ∃ G, (main_load (env_of_file [])).ret = .ok G ∧ G.memlen = 0 ∧
      G.mem[G.memlen]? = some NUL ∧ G.umemlen = 0 ∧ G.umem.length = 2 * G.memlen ∧
      ¬ (G.umemlen < 2 * G.memlen) ∧ G.umem[G.umemlen]? = none := by
  refine ⟨by decide, ⟨[0], 0, [], 0⟩, rfl, rfl, by decide, rfl, rfl, by decide, by decide⟩

/-! ## The buffers the tests read (C11) -/


/-- C11 on the code: the four runs of `test_expr`, and so all tests of `main`,
are the same whatever `umem` and `umemlen` hold, because the iterators are
given `mem` and `memlen` only. For the corpus `0xE5 NL` the loader fills
`umem` with the UTF-8 text `0xC3 0xA5 NL`; an engine that matches only in a
buffer that begins with `0xC3` finds a match when an iterator is given `umem`,
and `main` prints no match line with it. -/
theorem C11_tests_never_read_umem :
    (∀ (E : Engine) (G : Globals) (fuel : Nat) (u : List Nat) (n : Nat)
        (expr : String) (expected expectedicase : Int),
      test_expr E { G with umem := u, umemlen := n } fuel expr expected expectedicase =
        test_expr E G fuel expr expected expectedicase) ∧
    (∀ (E : Engine) (G : Globals) (fuel : Nat) (u : List Nat) (n : Nat),
      main_tests E { G with umem := u, umemlen := n } fuel = main_tests E G fuel) ∧
    (∃ G, (main_load (env_of_file [229, 10])).ret = .ok G ∧
      G.mem = [229, 10, 0] ∧ G.memlen = 2 ∧ G.umem = [195, 165, 10, 0] ∧ G.umemlen = 3 ∧
      line_starts (run_test utf8_only_engine "Uddeborg" G.umem G.umemlen false 2 5).out
        = [0] ∧
      line_starts (run_test_backwards utf8_only_engine "Uddeborg" G.umem G.umemlen
        false 2 5).out = [0] ∧
      (test_headers (main (env_of_file [229, 10]) utf8_only_engine 5).out).length = 28 ∧
      line_starts (main (env_of_file [229, 10]) utf8_only_engine 5).out = []) := by
  refine ⟨fun _ _ _ _ _ _ _ _ => rfl, fun _ _ _ _ _ => rfl,
    ⟨[229, 10, 0], 2, [195, 165, 10, 0], 3⟩, rfl, rfl, rfl, rfl, rfl, ?_, ?_, ?_, ?_⟩
  · decide
  · decide
  · decide
  · decide

/-! ## The order of the runs (C12) -/

theorem seq_of_ret_ok {α β : Type} (m : Prog α) (f : α → Prog β) (a : α)
    (h : m.ret = .ok a) : Prog.seq m f = ⟨m.out ++ (f a).out, (f a).ret⟩ := by
  unfold Prog.seq
  rw [h]

theorem main_load_out (env : Env) : (main_load env).out = [] := by
  unfold main_load
  simp only [apply_ite Prog.out, fatal, pure_def, ite_self]

/-- What a call of `test_expr` prints when its four runs return. -/
theorem test_expr_out (E : Engine) (G : Globals) (fuel : Nat) (expr : String)
    (expected expectedicase : Int) (r1 r2 r3 r4 : Nat)
    (h1 : (run_test E expr G.mem G.memlen false expected fuel).ret = .ok r1)
    (h2 : (run_test E expr G.mem G.memlen true expectedicase fuel).ret = .ok r2)
    (h3 : (run_test_backwards E expr G.mem G.memlen false expected fuel).ret = .ok r3)
    (h4 : (run_test_backwards E expr G.mem G.memlen true expectedicase fuel).ret = .ok r4) :
    (test_expr E G fuel expr expected expectedicase).out =
      [Event.test_header expr false false] ++
        (run_test E expr G.mem G.memlen false expected fuel).out ++
      [Event.test_header expr false true] ++
        (run_test E expr G.mem G.memlen true expectedicase fuel).out ++
      [Event.test_header expr true false] ++
        (run_test_backwards E expr G.mem G.memlen false expected fuel).out ++
      [Event.test_header expr true true] ++
        (run_test_backwards E expr G.mem G.memlen true expectedicase fuel).out := by
  unfold test_expr
  simp only [bind_def, printf, pure_def]
  rw [seq_of_ret_ok _ _ () rfl, seq_of_ret_ok _ _ r1 h1, seq_of_ret_ok _ _ () rfl,
    seq_of_ret_ok _ _ r2 h2, seq_of_ret_ok _ _ () rfl, seq_of_ret_ok _ _ r3 h3,
    seq_of_ret_ok _ _ () rfl, seq_of_ret_ok _ _ r4 h4]
  simp only [List.append_assoc, List.append_nil]

theorem test_headers_append (a b : List Event) :
    test_headers (a ++ b) = test_headers a ++ test_headers b := by
  induction a with
  | nil => rfl
  | cons e rest ih =>
    cases e with
    | test_header expr backwards icase => simp [test_headers, ih]
    | match_line cnt sp ep => simp [test_headers, ih]

theorem test_headers_flatMap {α : Type} (l : List α) (f : α → List Event) :
    test_headers (l.flatMap f) = l.flatMap (fun p => test_headers (f p)) := by
  induction l with
  | nil => rfl
  | cons a rest ih => simp only [List.flatMap_cons, test_headers_append, ih]

theorem seq_pure_out {α β : Type} (m : Prog α) (g : α → β) :
    (Prog.seq m (fun a => pure (g a))).out = m.out := by
  unfold Prog.seq
  cases m.ret with
  | ok a => simp [pure_def]
  | error e => rfl

theorem run_test_loop_headers (regexec : Nat → RegexecResult) (mem : List Nat) (memlen : Nat) :
    ∀ fuel offset cnt,
      test_headers (run_test_loop regexec mem memlen fuel offset cnt).out = [] := by
  intro fuel
  induction fuel with
  | zero =>
    intro offset cnt
    rfl
  | succ fuel ih =>
    intro offset cnt
    rw [run_test_loop_succ]
    by_cases hlt : offset < memlen
    · simp only [hlt, if_true]
      cases hb : run_test_body regexec mem offset cnt with
      | brk => rfl
      | stop f => rfl
      | next offset' cnt' sp ep =>
        simp only [printf_seq_out, test_headers]
        exact ih offset' cnt'
    · simp only [hlt, if_false]
      rfl

theorem run_test_backwards_loop_headers (re_search : Nat → Int) (mem : List Nat)
    (memlen : Nat) :
    ∀ fuel offset cnt,
      test_headers (run_test_backwards_loop re_search mem memlen fuel offset cnt).out = [] := by
  intro fuel
  induction fuel with
  | zero =>
    intro offset cnt
    rfl
  | succ fuel ih =>
    intro offset cnt
    rw [run_test_backwards_loop_succ]
    by_cases hle : offset ≤ memlen
    · simp only [hle, if_true]
      cases hb : run_test_backwards_body re_search mem offset cnt with
      | brk => rfl
      | stop f => rfl
      | next offset' cnt' sp ep =>
        simp only [printf_seq_out, test_headers]
        exact ih offset' cnt'
    · simp only [hle, if_false]
      rfl

theorem run_test_headers (E : Engine) (expr : String) (mem : List Nat) (memlen : Nat)
    (icase : Bool) (expected : Int) (fuel : Nat) :
    test_headers (run_test E expr mem memlen icase expected fuel).out = [] := by
  unfold run_test
  split
  · rfl
  · split
    · rfl
    · split
      · rfl
      · rw [bind_def, seq_pure_out]
        exact run_test_loop_headers _ _ _ _ _ _

theorem run_test_backwards_headers (E : Engine) (expr : String) (mem : List Nat)
    (memlen : Nat) (icase : Bool) (expected : Int) (fuel : Nat) :
    test_headers (run_test_backwards E expr mem memlen icase expected fuel).out = [] := by
  unfold run_test_backwards
  split
  · rfl
  · split
    · rfl
    · split
      · rfl
      · split
        · rfl
        · split
          · rfl
          · rw [bind_def, seq_pure_out]
            exact run_test_backwards_loop_headers _ _ _ _ _ _

/-- What the tests of `main` print when the seven calls of `test_expr`
return. -/
theorem main_tests_out (E : Engine) (G : Globals) (fuel : Nat)
    (r1 r2 r3 r4 r5 r6 r7 : Nat)
    (h1 : (test_expr E G fuel "[�������������������]" 2 2).ret = .ok r1)
    (h2 : (test_expr E G fuel "G.ran" 2 3).ret = .ok r2)
    (h3 : (test_expr E G fuel "G.\\\x7b1\\\x7dran" 2 3).ret = .ok r3)
    (h4 : (test_expr E G fuel "G.*ran" 3 44).ret = .ok r4)
    (h5 : (test_expr E G fuel "[����]" 0 0).ret = .ok r5)
    (h6 : (test_expr E G fuel "Uddeborg" 2 2).ret = .ok r6)
    (h7 : (test_expr E G fuel ".Uddeborg" 2 2).ret = .ok r7) :
    (main_tests E G fuel).out =
      patterns.flatMap (fun p => (test_expr E G fuel p.1 p.2.1 p.2.2).out) := by
  unfold main_tests
  simp only [bind_def, pure_def]
  rw [seq_of_ret_ok _ _ r1 h1, seq_of_ret_ok _ _ r2 h2, seq_of_ret_ok _ _ r3 h3,
    seq_of_ret_ok _ _ r4 h4, seq_of_ret_ok _ _ r5 h5, seq_of_ret_ok _ _ r6 h6,
    seq_of_ret_ok _ _ r7 h7]
  simp only [patterns, List.flatMap_cons, List.flatMap_nil, List.append_assoc, List.append_nil]

/-- C12: once the corpus is loaded, if each of the four runs of each of the
seven patterns returns, with a match or a mismatch of its count, then `main`
returns; and when `main` returns, its output is, pattern after pattern in
table order, the header and the output of the forward run, of the forward
case-insensitive run, of the backward run and of the backward
case-insensitive run, so that 28 runs have been made and 28 headers
printed. -/
theorem C12_all_runs_happen (env : Env) (E : Engine) (fuel : Nat) :
    (∀ G, (main_load env).ret = .ok G →
      (∀ p ∈ patterns,
        (∃ r, (run_test E p.1 G.mem G.memlen false p.2.1 fuel).ret = .ok r) ∧
        (∃ r, (run_test E p.1 G.mem G.memlen true p.2.2 fuel).ret = .ok r) ∧
        (∃ r, (run_test_backwards E p.1 G.mem G.memlen false p.2.1 fuel).ret = .ok r) ∧
        (∃ r, (run_test_backwards E p.1 G.mem G.memlen true p.2.2 fuel).ret = .ok r)) →
      ∃ r, (main env E fuel).ret = .ok r) ∧
    (∀ r, (main env E fuel).ret = .ok r →
      ∃ G, (main_load env).ret = .ok G ∧
        (main env E fuel).out = patterns.flatMap (fun p =>
          [Event.test_header p.1 false false] ++
            (run_test E p.1 G.mem G.memlen false p.2.1 fuel).out ++
          [Event.test_header p.1 false true] ++
            (run_test E p.1 G.mem G.memlen true p.2.2 fuel).out ++
          [Event.test_header p.1 true false] ++
            (run_test_backwards E p.1 G.mem G.memlen false p.2.1 fuel).out ++
          [Event.test_header p.1 true true] ++
            (run_test_backwards E p.1 G.mem G.memlen true p.2.2 fuel).out) ∧
        test_headers (main env E fuel).out = patterns.flatMap (fun p =>
          [Event.test_header p.1 false false, Event.test_header p.1 false true,
           Event.test_header p.1 true false, Event.test_header p.1 true true]) ∧
        (test_headers (main env E fuel).out).length = 28) := by
  constructor
  · intro G hG hruns
    have hexpr : ∀ p ∈ patterns, ∃ r, (test_expr E G fuel p.1 p.2.1 p.2.2).ret = .ok r := by
      intro p hp
      obtain ⟨⟨r1, h1⟩, ⟨r2, h2⟩, ⟨r3, h3⟩, ⟨r4, h4⟩⟩ := hruns p hp
      exact ⟨_, (test_expr_ret_ok _ _ _ _ _ _ _).2 ⟨r1, r2, r3, r4, h1, h2, h3, h4, rfl⟩⟩
    simp only [patterns, List.forall_mem_cons, List.not_mem_nil, IsEmpty.forall_iff,
      implies_true, and_true] at hexpr
    obtain ⟨⟨r1, h1⟩, ⟨r2, h2⟩, ⟨r3, h3⟩, ⟨r4, h4⟩, ⟨r5, h5⟩, ⟨r6, h6⟩, ⟨r7, h7⟩⟩ := hexpr
    refine ⟨r1 ||| r2 ||| r3 ||| r4 ||| r5 ||| r6 ||| r7, ?_⟩
    unfold main
    rw [bind_def, seq_ret_ok]
    exact ⟨G, hG, (main_tests_ret_ok _ _ _ _).2
      ⟨r1, r2, r3, r4, r5, r6, r7, h1, h2, h3, h4, h5, h6, h7, rfl⟩⟩
  · intro r h
    have hmain := h
    unfold main at hmain
    rw [bind_def, seq_ret_ok] at hmain
    obtain ⟨G, hG, ht⟩ := hmain
    obtain ⟨r1, r2, r3, r4, r5, r6, r7, h1, h2, h3, h4, h5, h6, h7, _⟩ :=
      (main_tests_ret_ok _ _ _ _).1 ht
    have hout : (main env E fuel).out = (main_tests E G fuel).out := by
      unfold main
      rw [bind_def, seq_of_ret_ok _ _ G hG, main_load_out]
      rfl
    have hexpr : ∀ (expr : String) (e ei : Int) (q : Nat),
        (test_expr E G fuel expr e ei).ret = .ok q →
        (test_expr E G fuel expr e ei).out =
          [Event.test_header expr false false] ++
            (run_test E expr G.mem G.memlen false e fuel).out ++
          [Event.test_header expr false true] ++
            (run_test E expr G.mem G.memlen true ei fuel).out ++
          [Event.test_header expr true false] ++
            (run_test_backwards E expr G.mem G.memlen false e fuel).out ++
          [Event.test_header expr true true] ++
            (run_test_backwards E expr G.mem G.memlen true ei fuel).out := by
      intro expr e ei q hq
      obtain ⟨q1, q2, q3, q4, a1, a2, a3, a4, _⟩ := (test_expr_ret_ok _ _ _ _ _ _ _).1 hq
      exact test_expr_out E G fuel expr e ei q1 q2 q3 q4 a1 a2 a3 a4
    have hfull : (main env E fuel).out = patterns.flatMap (fun p =>
          [Event.test_header p.1 false false] ++
            (run_test E p.1 G.mem G.memlen false p.2.1 fuel).out ++
          [Event.test_header p.1 false true] ++
            (run_test E p.1 G.mem G.memlen true p.2.2 fuel).out ++
          [Event.test_header p.1 true false] ++
            (run_test_backwards E p.1 G.mem G.memlen false p.2.1 fuel).out ++
          [Event.test_header p.1 true true] ++
            (run_test_backwards E p.1 G.mem G.memlen true p.2.2 fuel).out) := by
      rw [hout, main_tests_out E G fuel r1 r2 r3 r4 r5 r6 r7 h1 h2 h3 h4 h5 h6 h7]
      simp only [patterns, List.flatMap_cons, List.flatMap_nil]
      rw [hexpr _ _ _ _ h1, hexpr _ _ _ _ h2, hexpr _ _ _ _ h3, hexpr _ _ _ _ h4,
        hexpr _ _ _ _ h5, hexpr _ _ _ _ h6, hexpr _ _ _ _ h7]
    have hheaders : test_headers (main env E fuel).out = patterns.flatMap (fun p =>
          [Event.test_header p.1 false false, Event.test_header p.1 false true,
           Event.test_header p.1 true false, Event.test_header p.1 true true]) := by
      rw [hfull, test_headers_flatMap]
      congr 1
      funext p
      simp only [test_headers_append, run_test_headers, run_test_backwards_headers,
        List.append_nil]
      rfl
    refine ⟨G, hG, hfull, hheaders, ?_⟩
    rw [hheaders]
    rfl

/-- C12 at a two-byte corpus and an engine that never matches: every run
whose expected count is not 0 returns a mismatch, `main` returns 1, and all 28
headers are printed. -/
theorem C12_all_runs_happen_witness :
    (main (env_of_file [97, 10]) silent_engine 3).ret = .ok 1 ∧
    (run_test silent_engine "G.ran" [97, 10, 0] 2 false 2 3).ret = .ok 1 ∧
    ∃ G, (main_load (env_of_file [97, 10])).ret = .ok G ∧
      (main (env_of_file [97, 10]) silent_engine 3).out = patterns.flatMap (fun p =>
        [Event.test_header p.1 false false] ++
          (run_test silent_engine p.1 G.mem G.memlen false p.2.1 3).out ++
        [Event.test_header p.1 false true] ++
          (run_test silent_engine p.1 G.mem G.memlen true p.2.2 3).out ++
        [Event.test_header p.1 true false] ++
          (run_test_backwards silent_engine p.1 G.mem G.memlen false p.2.1 3).out ++
        [Event.test_header p.1 true true] ++
          (run_test_backwards silent_engine p.1 G.mem G.memlen true p.2.2 3).out) ∧
      test_headers (main (env_of_file [97, 10]) silent_engine 3).out =
        patterns.flatMap (fun p =>
          [Event.test_header p.1 false false, Event.test_header p.1 false true,
           Event.test_header p.1 true false, Event.test_header p.1 true true]) ∧
      (test_headers (main (env_of_file [97, 10]) silent_engine 3).out).length = 28 :=
  ⟨rfl, rfl, (C12_all_runs_happen (env_of_file [97, 10]) silent_engine 3).2 1 rfl⟩

/-! ## The expected counts of a call of `test_expr` (C13, C15) -/

/-- C13: when a call `test_expr (expr, expected, expectedicase)` returns, its
four runs have counted on the globals `mem` and `memlen` with the one pattern
`expr`, and its result is the OR of four comparisons: the case-sensitive
forward and backward counts against `expected`, the case-insensitive forward
and backward counts against `expectedicase`; so it is 0 exactly when all four
counts equal the expected count of their case mode. -/
theorem C13_expected_by_case_mode (E : Engine) (G : Globals) (fuel : Nat) (expr : String)
    (expected expectedicase : Int) (r : Nat)
    (h : (test_expr E G fuel expr expected expectedicase).ret = .ok r) :
    ∃ c1 c2 c3 c4 : Int,
      (run_test_loop (E.regexec expr false G.mem) G.mem G.memlen fuel 0 0).ret = .ok c1 ∧
      (run_test_loop (E.regexec expr true G.mem) G.mem G.memlen fuel 0 0).ret = .ok c2 ∧
      (run_test_backwards_loop (E.re_search expr false G.mem G.memlen) G.mem G.memlen
        fuel G.memlen 0).ret = .ok c3 ∧
      (run_test_backwards_loop (E.re_search expr true G.mem G.memlen) G.mem G.memlen
        fuel G.memlen 0).ret = .ok c4 ∧
      r = (if c1 = expected then 0 else 1) ||| (if c2 = expectedicase then 0 else 1) |||
          (if c3 = expected then 0 else 1) ||| (if c4 = expectedicase then 0 else 1) ∧
      (r = 0 ↔ c1 = expected ∧ c2 = expectedicase ∧ c3 = expected ∧ c4 = expectedicase) := by
  obtain ⟨r1, r2, r3, r4, h1, h2, h3, h4, hr⟩ := (test_expr_ret_ok _ _ _ _ _ _ _).1 h
  obtain ⟨_, _, c1, e1, rfl⟩ := (run_test_ret_ok _ _ _ _ _ _ _ _).1 h1
  obtain ⟨_, _, c2, e2, rfl⟩ := (run_test_ret_ok _ _ _ _ _ _ _ _).1 h2
  obtain ⟨_, _, _, _, c3, e3, rfl⟩ := (run_test_backwards_ret_ok _ _ _ _ _ _ _ _).1 h3
  obtain ⟨_, _, _, _, c4, e4, rfl⟩ := (run_test_backwards_ret_ok _ _ _ _ _ _ _ _).1 h4
  refine ⟨c1, c2, c3, c4, e1, e2, e3, e4, hr, ?_⟩
  rw [hr]
  simp only [lor_eq_zero, ite_count_eq_zero, and_assoc]

/-- C13 at the buffer `a b NL a b NL`, an engine that never matches and the
expected counts 0 and 1: the result is 1, because the case-insensitive counts
are 0. -/
theorem C13_expected_by_case_mode_witness :
    (test_expr silent_engine ⟨two_lines, 6, [], 0⟩ 3 "Uddeborg" 0 1).ret = .ok 1 ∧
    ∃ c1 c2 c3 c4 : Int,
      (run_test_loop (silent_engine.regexec "Uddeborg" false two_lines) two_lines 6
        3 0 0).ret = .ok c1 ∧
      (run_test_loop (silent_engine.regexec "Uddeborg" true two_lines) two_lines 6
        3 0 0).ret = .ok c2 ∧
      (run_test_backwards_loop (silent_engine.re_search "Uddeborg" false two_lines 6)
        two_lines 6 3 6 0).ret = .ok c3 ∧
      (run_test_backwards_loop (silent_engine.re_search "Uddeborg" true two_lines 6)
        two_lines 6 3 6 0).ret = .ok c4 ∧
      (1 : Nat) = (if c1 = 0 then 0 else 1) ||| (if c2 = 1 then 0 else 1) |||
          (if c3 = 0 then 0 else 1) ||| (if c4 = 1 then 0 else 1) ∧
      ((1 : Nat) = 0 ↔ c1 = 0 ∧ c2 = 1 ∧ c3 = 0 ∧ c4 = 1) :=
  ⟨rfl, C13_expected_by_case_mode silent_engine ⟨two_lines, 6, [], 0⟩ 3 "Uddeborg" 0 1 1 rfl⟩

/-- C15: when `main` returns, the calls of `test_expr` for the patterns
`G.*ran` and `Uddeborg` have returned and their results are among the seven
that `main` ORs; the result for `Uddeborg` is 0 exactly when the forward and
backward counts are 2 in both case modes, and the result for `G.*ran` is 0
exactly when the case-sensitive forward and backward counts are 3 and the
case-insensitive forward and backward counts are 44. -/
theorem C15_golden_values (env : Env) (E : Engine) (fuel : Nat) (r : Nat)
    (h : (main env E fuel).ret = .ok r) :
    ("G.*ran", (3 : Int), (44 : Int)) ∈ patterns ∧
    ("Uddeborg", (2 : Int), (2 : Int)) ∈ patterns ∧
    ∃ G r1 r2 r3 r4 r5 r6 r7,
      (main_load env).ret = .ok G ∧
      (test_expr E G fuel "G.*ran" 3 44).ret = .ok r4 ∧
      (test_expr E G fuel "Uddeborg" 2 2).ret = .ok r6 ∧
      r = r1 ||| r2 ||| r3 ||| r4 ||| r5 ||| r6 ||| r7 ∧
      (r = 0 → r4 = 0 ∧ r6 = 0) ∧
      (r6 = 0 ↔
        forward_count E G fuel "Uddeborg" false = .ok 2 ∧
        forward_count E G fuel "Uddeborg" true = .ok 2 ∧
        backward_count E G fuel "Uddeborg" false = .ok 2 ∧
        backward_count E G fuel "Uddeborg" true = .ok 2) ∧
      (r4 = 0 ↔
        forward_count E G fuel "G.*ran" false = .ok 3 ∧
        forward_count E G fuel "G.*ran" true = .ok 44 ∧
        backward_count E G fuel "G.*ran" false = .ok 3 ∧
        backward_count E G fuel "G.*ran" true = .ok 44) := by
  refine ⟨by simp [patterns], by simp [patterns], ?_⟩
  unfold main at h
  rw [bind_def, seq_ret_ok] at h
  obtain ⟨G, hG, ht⟩ := h
  obtain ⟨r1, r2, r3, r4, r5, r6, r7, h1, h2, h3, h4, h5, h6, h7, hr⟩ :=
    (main_tests_ret_ok _ _ _ _).1 ht
  refine ⟨G, r1, r2, r3, r4, r5, r6, r7, hG, h4, h6, hr, ?_,
    test_expr_eq_zero _ _ _ _ _ _ _ h6, test_expr_eq_zero _ _ _ _ _ _ _ h4⟩
  intro h0
  rw [hr] at h0
  simp only [lor_eq_zero] at h0
  obtain ⟨⟨⟨⟨_, e4⟩, _⟩, e6⟩, _⟩ := h0
  exact ⟨e4, e6⟩

/-- C15 at a two-byte corpus and an engine that never matches: `main` returns
1, and neither pattern has its golden counts. -/
theorem C15_golden_values_witness :
    (main (env_of_file [97, 10]) silent_engine 3).ret = .ok 1 ∧
    ∃ G r1 r2 r3 r4 r5 r6 r7,
      (main_load (env_of_file [97, 10])).ret = .ok G ∧
      (test_expr silent_engine G 3 "G.*ran" 3 44).ret = .ok r4 ∧
      (test_expr silent_engine G 3 "Uddeborg" 2 2).ret = .ok r6 ∧
      (1 : Nat) = r1 ||| r2 ||| r3 ||| r4 ||| r5 ||| r6 ||| r7 ∧
      ((1 : Nat) = 0 → r4 = 0 ∧ r6 = 0) ∧
      (r6 = 0 ↔
        forward_count silent_engine G 3 "Uddeborg" false = .ok 2 ∧
        forward_count silent_engine G 3 "Uddeborg" true = .ok 2 ∧
        backward_count silent_engine G 3 "Uddeborg" false = .ok 2 ∧
        backward_count silent_engine G 3 "Uddeborg" true = .ok 2) ∧
      (r4 = 0 ↔
        forward_count silent_engine G 3 "G.*ran" false = .ok 3 ∧
        forward_count silent_engine G 3 "G.*ran" true = .ok 44 ∧
        backward_count silent_engine G 3 "G.*ran" false = .ok 3 ∧
        backward_count silent_engine G 3 "G.*ran" true = .ok 44) :=
  ⟨rfl, (C15_golden_values (env_of_file [97, 10]) silent_engine 3 1 rfl).2.2⟩

/-! ## The zero-match boundary (C14) -/

/-- C14: on a buffer with `mem[memlen] = NUL`, once the pattern has compiled,
if the first search signals no match (`REG_NOMATCH` from `regexec` at cursor 0,
`-1` from `re_search` at cursor `memlen`), then the loop of `run_test`, and
likewise that of `run_test_backwards`, ends with the count 0 and an empty
output, and the function prints no match line, stops nowhere, and returns 0
exactly when the expected count is 0, and 1 otherwise. -/
theorem C14_zero_matches (E : Engine) (expr : String) (mem : List Nat) (memlen : Nat)
    (icase : Bool) (expected : Int) (fuel : Nat)
    (hfuel : 0 < fuel) (hnul : mem[memlen]? = some NUL) :
    (E.regcomp expr icase = true → E.regexec expr icase mem 0 = .REG_NOMATCH →
      run_test_loop (E.regexec expr icase mem) mem memlen fuel 0 0 = ⟨[], .ok 0⟩ ∧
      ∃ r, run_test E expr mem memlen icase expected fuel = ⟨[], .ok r⟩ ∧
        (r = 0 ↔ expected = 0) ∧ (r = 1 ↔ expected ≠ 0)) ∧
    (E.fastmap_malloc = true → E.re_compile_pattern expr icase = true →
      E.re_compile_fastmap expr icase = true →
      E.re_search expr icase mem memlen memlen = -1 →
      run_test_backwards_loop (E.re_search expr icase mem memlen) mem memlen
        fuel memlen 0 = ⟨[], .ok 0⟩ ∧
      ∃ r, run_test_backwards E expr mem memlen icase expected fuel = ⟨[], .ok r⟩ ∧
        (r = 0 ↔ expected = 0) ∧ (r = 1 ↔ expected ≠ 0)) := by
  obtain ⟨f, rfl⟩ : ∃ f, fuel = f + 1 := ⟨fuel - 1, by omega⟩
  have hres : ∀ r : Nat, r = (if (0 : Int) ≠ expected then 1 else 0) →
      (r = 0 ↔ expected = 0) ∧ (r = 1 ↔ expected ≠ 0) := by
    intro r hr
    subst hr
    by_cases he : expected = 0
    · subst he
      simp
    · have he' : (0 : Int) ≠ expected := fun h0 => he h0.symm
      simp [he, he']
  constructor
  · intro hc hs
    have hloop : run_test_loop (E.regexec expr icase mem) mem memlen (f + 1) 0 0
        = ⟨[], .ok 0⟩ := by
      rw [run_test_loop_succ]
      by_cases hlt : 0 < memlen
      · simp [hlt, run_test_body, hs, pure_def]
      · simp [hlt, pure_def]
    refine ⟨hloop, (if (0 : Int) ≠ expected then 1 else 0), ?_, hres _ rfl⟩
    unfold run_test
    simp only [hc, hnul, hloop, bind_def, Prog.seq, pure_def]
    simp [NUL]
  · intro h1 h2 h3 hs
    have hloop : run_test_backwards_loop (E.re_search expr icase mem memlen) mem memlen
        (f + 1) memlen 0 = ⟨[], .ok 0⟩ := by
      rw [run_test_backwards_loop_succ]
      simp [run_test_backwards_body, hs, pure_def]
    refine ⟨hloop, (if (0 : Int) ≠ expected then 1 else 0), ?_, hres _ rfl⟩
    unfold run_test_backwards
    simp only [h1, h2, h3, hnul, hloop, bind_def, Prog.seq, pure_def]
    simp [NUL]

/-- C14 at the buffer `a b NL a b NL`, an engine that never matches and the
expected count 2. -/
theorem C14_zero_matches_witness :
    0 < 1 ∧ two_lines[6]? = some NUL ∧
    silent_engine.regexec "G.ran" false two_lines 0 = .REG_NOMATCH ∧
    silent_engine.re_search "G.ran" false two_lines 6 6 = -1 ∧
    (run_test_loop (silent_engine.regexec "G.ran" false two_lines) two_lines 6 1 0 0
        = ⟨[], .ok 0⟩ ∧
      ∃ r, run_test silent_engine "G.ran" two_lines 6 false 2 1 = ⟨[], .ok r⟩ ∧
        (r = 0 ↔ (2 : Int) = 0) ∧ (r = 1 ↔ (2 : Int) ≠ 0)) ∧
    (run_test_backwards_loop (silent_engine.re_search "G.ran" false two_lines 6) two_lines 6
        1 6 0 = ⟨[], .ok 0⟩ ∧
      ∃ r, run_test_backwards silent_engine "G.ran" two_lines 6 false 2 1 = ⟨[], .ok r⟩ ∧
        (r = 0 ↔ (2 : Int) = 0) ∧ (r = 1 ↔ (2 : Int) ≠ 0)) :=
  have h := C14_zero_matches silent_engine "G.ran" two_lines 6 false 2 1 (by decide)
    (by decide)
  ⟨by decide, by decide, rfl, rfl, h.1 rfl rfl, h.2 rfl rfl rfl rfl⟩

/-! ## Termination of the loops (C16) -/

theorem run_test_iterations_succ (regexec : Nat → RegexecResult) (mem : List Nat)
    (memlen : Nat) (fuel offset : Nat) (cnt : Int) :
    run_test_iterations regexec mem memlen (fuel + 1) offset cnt =
      if offset < memlen then
        match run_test_body regexec mem offset cnt with
        | .brk => 1
        | .stop _ => 1
        | .next offset' cnt' _ _ =>
          1 + run_test_iterations regexec mem memlen fuel offset' cnt'
      else 0 := rfl

theorem run_test_backwards_iterations_succ (re_search : Nat → Int) (mem : List Nat)
    (memlen : Nat) (fuel offset : Nat) (cnt : Int) :
    run_test_backwards_iterations re_search mem memlen (fuel + 1) offset cnt =
      if offset ≤ memlen then
        match run_test_backwards_body re_search mem offset cnt with
        | .brk => 1
        | .stop _ => 1
        | .next offset' cnt' _ _ =>
          1 + run_test_backwards_iterations re_search mem memlen fuel offset' cnt'
      else 0 := rfl

theorem run_test_backwards_iterations_past (re_search : Nat → Int) (mem : List Nat)
    (memlen : Nat) (fuel offset : Nat) (cnt : Int) (h : memlen < offset) :
    run_test_backwards_iterations re_search mem memlen fuel offset cnt = 0 := by
  cases fuel with
  | zero => rfl
  | succ fuel =>
    have h' : ¬ offset ≤ memlen := by omega
    simp [run_test_backwards_iterations_succ, h']

theorem passes_step_le (memlen offset ep k : Nat) (h1 : k ≤ memlen - (ep + 1))
    (h2 : offset ≤ ep) (h3 : offset < memlen) : 1 + k ≤ memlen - offset := by
  omega

theorem passes_out_le (l k : Nat) (h : l ≤ k) : l + 1 ≤ 1 + k := by
  omega

theorem passes_le_out (l k : Nat) (h : k ≤ l + 1) : 1 + k ≤ l + 1 + 1 := by
  omega

/-- The forward loop from cursor `offset` under the contract of the forward
search: its passes, its output, its count and its end. -/
theorem run_test_loop_bounds (regexec : Nat → RegexecResult) (mem : List Nat) (memlen : Nat)
    (hnul : mem[memlen]? = some NUL) (hsize : memlen + 1 < SIZE_MOD)
    (hfwd : ∀ c, c < memlen → regexec c = .REG_NOMATCH ∨
      ∃ rm_so, regexec c = .REG_NOERROR rm_so ∧ 0 ≤ rm_so ∧ c + rm_so.toNat ≤ memlen) :
    ∀ fuel offset (cnt : Int),
      run_test_iterations regexec mem memlen fuel offset cnt ≤ memlen - offset ∧
      (run_test_loop regexec mem memlen fuel offset cnt).out.length ≤
        run_test_iterations regexec mem memlen fuel offset cnt ∧
      run_test_iterations regexec mem memlen fuel offset cnt ≤
        (run_test_loop regexec mem memlen fuel offset cnt).out.length + 1 ∧
      (∀ n, (run_test_loop regexec mem memlen fuel offset cnt).ret = .ok n →
        cnt ≤ n ∧ n ≤ cnt + ((memlen - offset : Nat) : Int)) ∧
      (memlen - offset < fuel →
        (∃ n, (run_test_loop regexec mem memlen fuel offset cnt).ret = .ok n) ∨
        (run_test_loop regexec mem memlen fuel offset cnt).ret
          = .error (.fatal .int_overflow)) ∧
      (memlen - offset < fuel → cnt + ((memlen - offset : Nat) : Int) ≤ INT_MAX →
        ∃ n, (run_test_loop regexec mem memlen fuel offset cnt).ret = .ok n) := by
  intro fuel
  induction fuel with
  | zero =>
    intro offset cnt
    refine ⟨Nat.zero_le _, Nat.zero_le _, Nat.zero_le _, ?_, ?_, ?_⟩
    · intro n h
      simp [run_test_loop_zero] at h
    · intro h
      omega
    · intro h
      omega
  | succ fuel ih =>
    intro offset cnt
    rw [run_test_loop_succ, run_test_iterations_succ]
    by_cases hlt : offset < memlen
    · simp only [hlt, if_true]
      rcases hfwd offset hlt with hr | ⟨rm_so, hr, h0, hM⟩
      · have hb : run_test_body regexec mem offset cnt = .brk := by
          simp [run_test_body, hr]
        rw [hb]
        dsimp only
        refine ⟨by omega, by simp [pure_def], by simp [pure_def], ?_, ?_, ?_⟩
        · intro n h
          simp only [pure_def, Except.ok.injEq] at h
          omega
        · intro _
          exact Or.inl ⟨cnt, rfl⟩
        · intro _ _
          exact ⟨cnt, rfl⟩
      · obtain ⟨sp, ep, hs, he, hb⟩ :=
          run_test_body_of_match regexec mem memlen offset cnt rm_so hnul hr h0 hM
        obtain ⟨le, b1, b2, b3, _⟩ :=
          line_end_spec mem memlen (offset + rm_so.toNat) hnul hM
        rw [he] at b1
        simp only [Option.some.injEq] at b1
        subst b1
        rw [hb]
        by_cases hov : INT_MAX < cnt + 1
        · simp only [hov, if_true]
          refine ⟨by omega, by simp [fatal], by simp [fatal], ?_, ?_, ?_⟩
          · intro n h
            simp [fatal] at h
          · intro _
            exact Or.inr rfl
          · intro _ hle
            omega
        · simp only [hov, if_false]
          simp only [printf_seq_out, printf_seq_ret, List.length_cons]
          have hmod : (ep + 1) % SIZE_MOD = ep + 1 := Nat.mod_eq_of_lt (by omega)
          rw [hmod]
          obtain ⟨i1, i2, i3, i4, i5, i6⟩ := ih (ep + 1) (cnt + 1)
          have hoe : offset ≤ ep := by omega
          refine ⟨passes_step_le _ _ _ _ i1 hoe hlt, passes_out_le _ _ i2,
            passes_le_out _ _ i3, ?_, ?_, ?_⟩
          · intro n h
            have := i4 n h
            omega
          · intro hf
            exact i5 (by omega)
          · intro hf hle
            exact i6 (by omega) (by omega)
    · simp only [hlt, if_false]
      refine ⟨Nat.zero_le _, by simp [pure_def], Nat.zero_le _, ?_, ?_, ?_⟩
      · intro n h
        simp only [pure_def, Except.ok.injEq] at h
        omega
      · intro _
        exact Or.inl ⟨cnt, rfl⟩
      · intro _ _
        exact ⟨cnt, rfl⟩

theorem passes_back_le (offset sp k : Nat) (h1 : k ≤ sp - 1 + 1) (h2 : sp ≤ offset)
    (h3 : 0 < sp) : 1 + k ≤ offset + 1 := by
  omega

/-- The backward loop from a cursor `offset ≤ memlen` under the contract of the
backward search: its passes, its output, its count and its end. -/
theorem run_test_backwards_loop_bounds (re_search : Nat → Int) (mem : List Nat)
    (memlen : Nat) (hnul : mem[memlen]? = some NUL) (hsize : memlen + 1 < SIZE_MOD)
    (hbwd : ∀ c, c ≤ memlen → re_search c = -1 ∨ (0 ≤ re_search c ∧ re_search c ≤ c)) :
    ∀ fuel offset (cnt : Int), offset ≤ memlen →
      run_test_backwards_iterations re_search mem memlen fuel offset cnt ≤ offset + 1 ∧
      (run_test_backwards_loop re_search mem memlen fuel offset cnt).out.length ≤
        run_test_backwards_iterations re_search mem memlen fuel offset cnt ∧
      run_test_backwards_iterations re_search mem memlen fuel offset cnt ≤
        (run_test_backwards_loop re_search mem memlen fuel offset cnt).out.length + 1 ∧
      (∀ n, (run_test_backwards_loop re_search mem memlen fuel offset cnt).ret = .ok n →
        cnt ≤ n ∧ n ≤ cnt + ((offset + 1 : Nat) : Int)) ∧
      (offset + 1 < fuel →
        (∃ n, (run_test_backwards_loop re_search mem memlen fuel offset cnt).ret = .ok n) ∨
        (run_test_backwards_loop re_search mem memlen fuel offset cnt).ret
          = .error (.fatal .int_overflow)) ∧
      (offset + 1 < fuel → cnt + ((offset + 1 : Nat) : Int) ≤ INT_MAX →
        ∃ n, (run_test_backwards_loop re_search mem memlen fuel offset cnt).ret = .ok n) := by
  have hlen := lt_length_of_getElem?_eq_some hnul
  intro fuel
  induction fuel with
  | zero =>
    intro offset cnt _
    refine ⟨Nat.zero_le _, Nat.zero_le _, Nat.zero_le _, ?_, ?_, ?_⟩
    · intro n h
      simp [run_test_backwards_loop_zero] at h
    · intro h
      omega
    · intro h
      omega
  | succ fuel ih =>
    intro offset cnt hle
    rw [run_test_backwards_loop_succ, run_test_backwards_iterations_succ]
    simp only [hle, if_true]
    rcases hbwd offset hle with hr | ⟨h0, h1⟩
    · have hb : run_test_backwards_body re_search mem offset cnt = .brk := by
        simp [run_test_backwards_body, hr]
      rw [hb]
      dsimp only
      refine ⟨by omega, by simp [pure_def], by simp [pure_def], ?_, ?_, ?_⟩
      · intro n h
        simp only [pure_def, Except.ok.injEq] at h
        omega
      · intro _
        exact Or.inl ⟨cnt, rfl⟩
      · intro _ _
        exact ⟨cnt, rfl⟩
    · obtain ⟨s, hs⟩ : ∃ s : Nat, re_search offset = (s : Int) :=
        ⟨(re_search offset).toNat, by omega⟩
      have hso : s ≤ offset := by omega
      obtain ⟨sp, ep, hsp, hep, hb⟩ :=
        run_test_backwards_body_of_match re_search mem memlen offset cnt s hnul hs
          (by omega)
      obtain ⟨ls, a1, a2, _⟩ := line_start_spec mem s (by omega)
      rw [hsp] at a1
      simp only [Option.some.injEq] at a1
      subst a1
      rw [hb]
      by_cases hov : INT_MAX < cnt + 1
      · simp only [hov, if_true]
        refine ⟨by omega, by simp [fatal], by simp [fatal], ?_, ?_, ?_⟩
        · intro n h
          simp [fatal] at h
        · intro _
          exact Or.inr rfl
        · intro _ hle'
          omega
      · simp only [hov, if_false]
        simp only [printf_seq_out, printf_seq_ret, List.length_cons]
        by_cases hzero : sp = 0
        · subst hzero
          have hwrap : (0 + SIZE_MOD - 1) % SIZE_MOD = SIZE_MOD - 1 := by
            rw [Nat.zero_add]
            exact Nat.mod_eq_of_lt (by omega)
          rw [hwrap]
          have hpast : memlen < SIZE_MOD - 1 := by omega
          rw [run_test_backwards_iterations_past re_search mem memlen fuel (SIZE_MOD - 1)
            (cnt + 1) hpast,
            (run_test_backwards_loop_past re_search mem memlen fuel (SIZE_MOD - 1)
              (cnt + 1) hpast).1]
          refine ⟨by simp, by simp, by simp, ?_, ?_, ?_⟩
          · intro n h
            cases fuel with
            | zero => simp [run_test_backwards_loop_zero] at h
            | succ f =>
              rw [(run_test_backwards_loop_past re_search mem memlen (f + 1) (SIZE_MOD - 1)
                (cnt + 1) hpast).2 (by omega)] at h
              simp only [Except.ok.injEq] at h
              omega
          · intro hf
            left
            exact ⟨cnt + 1, (run_test_backwards_loop_past re_search mem memlen fuel
              (SIZE_MOD - 1) (cnt + 1) hpast).2 (by omega)⟩
          · intro hf _
            exact ⟨cnt + 1, (run_test_backwards_loop_past re_search mem memlen fuel
              (SIZE_MOD - 1) (cnt + 1) hpast).2 (by omega)⟩
        · have hstep : (sp + SIZE_MOD - 1) % SIZE_MOD = sp - 1 := by
            rw [show sp + SIZE_MOD - 1 = (sp - 1) + SIZE_MOD by omega,
              Nat.add_mod_right]
            exact Nat.mod_eq_of_lt (by omega)
          rw [hstep]
          obtain ⟨i1, i2, i3, i4, i5, i6⟩ := ih (sp - 1) (cnt + 1) (by omega)
          have hspo : sp ≤ offset := by omega
          refine ⟨passes_back_le _ _ _ i1 hspo (by omega), passes_out_le _ _ i2,
            passes_le_out _ _ i3, ?_, ?_, ?_⟩
          · intro n h
            have := i4 n h
            omega
          · intro hf
            exact i5 (by omega)
          · intro hf hle'
            exact i6 (by omega) (by omega)

/-- C16: for a buffer with `mem[memlen] = NUL`, if every forward search returns
no match or a match start at or after the cursor inside the buffer, the loop
of `run_test` makes at most `memlen` passes, and with fuel for them it ends:
it returns a count in `[0, memlen]`, or stops because the `int` counter would
pass `INT_MAX`, which cannot happen when `memlen ≤ INT_MAX`. If every backward
search returns no match or a match start in `[0, cursor]`, the loop of
`run_test_backwards` makes at most `memlen + 1` passes and ends in the same
way with a count in `[0, memlen + 1]`; a pass that finds a match on the first
line sets the cursor beyond `memlen`, after which the loop makes no pass. In
both loops the passes are the match lines printed, plus at most one. -/
theorem C16_loops_terminate (regexec : Nat → RegexecResult) (re_search : Nat → Int)
    (mem : List Nat) (memlen : Nat)
    (hnul : mem[memlen]? = some NUL) (hsize : memlen + 1 < SIZE_MOD)
    (hfwd : ∀ c, c < memlen → regexec c = .REG_NOMATCH ∨
      ∃ rm_so, regexec c = .REG_NOERROR rm_so ∧ 0 ≤ rm_so ∧ c + rm_so.toNat ≤ memlen)
    (hbwd : ∀ c, c ≤ memlen → re_search c = -1 ∨ (0 ≤ re_search c ∧ re_search c ≤ c)) :
    (∀ fuel,
      run_test_iterations regexec mem memlen fuel 0 0 ≤ memlen ∧
      (run_test_loop regexec mem memlen fuel 0 0).out.length ≤
        run_test_iterations regexec mem memlen fuel 0 0 ∧
      run_test_iterations regexec mem memlen fuel 0 0 ≤
        (run_test_loop regexec mem memlen fuel 0 0).out.length + 1) ∧
    (∀ fuel, memlen < fuel →
      (∃ n, (run_test_loop regexec mem memlen fuel 0 0).ret = .ok n ∧
        0 ≤ n ∧ n ≤ (memlen : Int)) ∨
      (run_test_loop regexec mem memlen fuel 0 0).ret = .error (.fatal .int_overflow)) ∧
    (∀ fuel, memlen < fuel → (memlen : Int) ≤ INT_MAX →
      ∃ n, (run_test_loop regexec mem memlen fuel 0 0).ret = .ok n ∧
        0 ≤ n ∧ n ≤ (memlen : Int)) ∧
    (∀ fuel,
      run_test_backwards_iterations re_search mem memlen fuel memlen 0 ≤ memlen + 1 ∧
      (run_test_backwards_loop re_search mem memlen fuel memlen 0).out.length ≤
        run_test_backwards_iterations re_search mem memlen fuel memlen 0 ∧
      run_test_backwards_iterations re_search mem memlen fuel memlen 0 ≤
        (run_test_backwards_loop re_search mem memlen fuel memlen 0).out.length + 1) ∧
    (∀ fuel, memlen + 1 < fuel →
      (∃ n, (run_test_backwards_loop re_search mem memlen fuel memlen 0).ret = .ok n ∧
        0 ≤ n ∧ n ≤ (memlen : Int) + 1) ∨
      (run_test_backwards_loop re_search mem memlen fuel memlen 0).ret
        = .error (.fatal .int_overflow)) ∧
    (∀ fuel, memlen + 1 < fuel → (memlen : Int) + 1 ≤ INT_MAX →
      ∃ n, (run_test_backwards_loop re_search mem memlen fuel memlen 0).ret = .ok n ∧
        0 ≤ n ∧ n ≤ (memlen : Int) + 1) ∧
    (∀ offset cnt offset' cnt' ep, offset ≤ memlen →
      run_test_backwards_body re_search mem offset cnt = .next offset' cnt' 0 ep →
      memlen < offset' ∧
      ∀ fuel c, run_test_backwards_iterations re_search mem memlen fuel offset' c = 0) := by
  have hF := run_test_loop_bounds regexec mem memlen hnul hsize hfwd
  have hB := run_test_backwards_loop_bounds re_search mem memlen hnul hsize hbwd
  refine ⟨?_, ?_, ?_, ?_, ?_, ?_, ?_⟩
  · intro fuel
    obtain ⟨a1, a2, a3, _⟩ := hF fuel 0 0
    exact ⟨a1, a2, a3⟩
  · intro fuel hfuel
    obtain ⟨_, _, _, a4, a5, _⟩ := hF fuel 0 0
    rcases a5 (by omega) with ⟨n, hn⟩ | h
    · left
      have := a4 n hn
      exact ⟨n, hn, by omega, by omega⟩
    · exact Or.inr h
  · intro fuel hfuel hmax
    obtain ⟨_, _, _, a4, _, a6⟩ := hF fuel 0 0
    obtain ⟨n, hn⟩ := a6 (by omega) (by omega)
    have := a4 n hn
    exact ⟨n, hn, by omega, by omega⟩
  · intro fuel
    obtain ⟨a1, a2, a3, _⟩ := hB fuel memlen 0 (le_refl _)
    exact ⟨a1, a2, a3⟩
  · intro fuel hfuel
    obtain ⟨_, _, _, a4, a5, _⟩ := hB fuel memlen 0 (le_refl _)
    rcases a5 hfuel with ⟨n, hn⟩ | h
    · left
      have := a4 n hn
      exact ⟨n, hn, by omega, by omega⟩
    · exact Or.inr h
  · intro fuel hfuel hmax
    obtain ⟨_, _, _, a4, _, a6⟩ := hB fuel memlen 0 (le_refl _)
    obtain ⟨n, hn⟩ := a6 hfuel (by omega)
    have := a4 n hn
    exact ⟨n, hn, by omega, by omega⟩
  · intro offset cnt offset' cnt' ep _ hb
    obtain ⟨_, _, _, ho, _, _⟩ :=
      run_test_backwards_body_next re_search mem offset cnt offset' cnt' 0 ep hb
    have hwrap : (0 + SIZE_MOD - 1) % SIZE_MOD = SIZE_MOD - 1 := by
      rw [Nat.zero_add]
      exact Nat.mod_eq_of_lt (by omega)
    rw [hwrap] at ho
    have hpast : memlen < offset' := by omega
    exact ⟨hpast, fun fuel c =>
      run_test_backwards_iterations_past re_search mem memlen fuel offset' c hpast⟩

/-- The searches built from a list of match starts keep the contracts of the
two loops. -/
theorem searches_of_starts_contract (S : List Nat) (memlen : Nat) :
    (∀ c, c < memlen → regexec_of_starts S memlen c = .REG_NOMATCH ∨
      ∃ rm_so, regexec_of_starts S memlen c = .REG_NOERROR rm_so ∧ 0 ≤ rm_so ∧
        c + rm_so.toNat ≤ memlen) ∧
    (∀ c, c ≤ memlen → re_search_of_starts S c = -1 ∨
      (0 ≤ re_search_of_starts S c ∧ re_search_of_starts S c ≤ (c : Int))) := by
  constructor
  · intro c hc
    obtain ⟨h1, _, h3⟩ := regexec_of_starts_spec S memlen c (by omega)
    cases hres : regexec_of_starts S memlen c with
    | REG_NOMATCH => exact Or.inl rfl
    | failure err => exact absurd hres (h3 err)
    | REG_NOERROR rm_so =>
      obtain ⟨a1, a2, _⟩ := h1 rm_so hres
      exact Or.inr ⟨rm_so, rfl, a1, a2⟩
  · intro c _
    rcases re_search_of_starts_spec S c with ⟨h1, _⟩ | ⟨s, h1, h2, _⟩
    · exact Or.inl h1
    · right
      rw [h1]
      omega

/-- C16 at the buffer `NL NL` (terminator at index 2) with a match start at
every index: the forward loop makes `memlen = 2` passes and the backward loop
`memlen + 1 = 3`, and both return. -/
theorem C16_loops_terminate_witness :
    ([10, 10, 0] : List Nat)[2]? = some NUL ∧ 2 + 1 < SIZE_MOD ∧
    run_test_iterations (regexec_of_starts [0, 1, 2] 2) [10, 10, 0] 2 4 0 0 = 2 ∧
    run_test_backwards_iterations (re_search_of_starts [0, 1, 2]) [10, 10, 0] 2 4 2 0 = 3 ∧
    ((∃ n, (run_test_loop (regexec_of_starts [0, 1, 2] 2) [10, 10, 0] 2 4 0 0).ret = .ok n ∧
        0 ≤ n ∧ n ≤ ((2 : Nat) : Int)) ∨
      (run_test_loop (regexec_of_starts [0, 1, 2] 2) [10, 10, 0] 2 4 0 0).ret
        = .error (.fatal .int_overflow)) ∧
    ((∃ n, (run_test_backwards_loop (re_search_of_starts [0, 1, 2]) [10, 10, 0] 2 4 2 0).ret
          = .ok n ∧ 0 ≤ n ∧ n ≤ ((2 : Nat) : Int) + 1) ∨
      (run_test_backwards_loop (re_search_of_starts [0, 1, 2]) [10, 10, 0] 2 4 2 0).ret
        = .error (.fatal .int_overflow)) :=
  have hC := searches_of_starts_contract [0, 1, 2] 2
  have h := C16_loops_terminate (regexec_of_starts [0, 1, 2] 2) (re_search_of_starts [0, 1, 2])
    [10, 10, 0] 2 (by decide) (by decide) hC.1 hC.2
  ⟨by decide, by decide, by decide, by decide, h.2.1 4 (by decide), h.2.2.2.2.1 4 (by decide)⟩

end TstRegex
